import Mathlib

/-
  Verification development for the `codeline` agent backend.

  The definitions below are a shallow embedding of the Python sources:
    * the tag parser and lenient JSON decoding shared by both providers
      (src/providers/openai_provider.py, src/providers/claude_code_provider.py),
    * the streamed-chunk production of both provider variants,
    * the interactive turn loop (src/test_agent.py, SimpleAgent.task_loop),
    * the websocket turn loop (src/task.py, Task.task_loop / execute_tool /
      send_to_ui) together with the provider-call mode defaulting of
      src/ai_client.py.
  Interactive inputs (operator stdin), tool side effects and the UI sink are
  modelled as oracle functions; everything else is translated directly from
  the source.
-/

namespace Codeline

/-! ## Character-level utilities -/

/-- Python regex `\w` (restricted to ASCII, which is all the tool syntax uses). -/
def isWordChar (c : Char) : Bool := c.isAlphanum || c = '_'

/-- `p` is a prefix of `l` (the anchored-match part of regex scanning). -/
def startsWith : List Char → List Char → Bool
  | [], _ => true
  | _ :: _, [] => false
  | p :: ps, c :: cs => p == c && startsWith ps cs

/-- Find the earliest occurrence of `pat` in `l`; return the part before it and
the part after it.  This is the semantics of the lazy `(.*?)</tag>` search. -/
def splitOnList (pat : List Char) : List Char → Option (List Char × List Char)
  | [] => if startsWith pat [] then some ([], ([] : List Char).drop pat.length) else none
  | c :: r =>
    if startsWith pat (c :: r) then some ([], (c :: r).drop pat.length)
    else (splitOnList pat r).map fun p => (c :: p.1, p.2)

/-- Python `str.strip()`. -/
def trim (l : List Char) : List Char :=
  ((l.dropWhile Char.isWhitespace).reverse.dropWhile Char.isWhitespace).reverse

/-! ## The tag scanner

`re.finditer(r'<(\w+)>(.*?)</\1>', text, re.DOTALL)` finds, scanning left to
right, the next position where `<name>` (nonempty word-run) opens and the
matching `</name>` occurs later; the lazy body runs to the *earliest* close
tag.  Scanning resumes after the consumed match (matches never overlap). -/

/-- Try to match `<name>` at the head of the input; on success return the tag
name and the rest of the input. -/
def readOpenTag : List Char → Option (List Char × List Char)
  | [] => none
  | c :: rest =>
    if c = '<' then
      let n := rest.takeWhile isWordChar
      match rest.dropWhile isWordChar with
      | [] => none
      | c2 :: r2 => if c2 = '>' ∧ n ≠ [] then some (n, r2) else none
    else none

def openTag (n : List Char) : List Char := '<' :: n ++ ['>']

def closeTag (n : List Char) : List Char := '<' :: '/' :: n ++ ['>']

/-- Fuel-driven scanner for all non-overlapping `<name>lazy-body</name>`
matches.  The fuel is only a structural-recursion device; `scanBlocks` below
always supplies enough. -/
def scanBlocksF : Nat → List Char → List (List Char × List Char)
  | 0, _ => []
  | _ + 1, [] => []
  | fuel + 1, c :: rest =>
    match readOpenTag (c :: rest) with
    | some (name, afterOpen) =>
      (match splitOnList (closeTag name) afterOpen with
       | some (content, afterClose) => (name, content) :: scanBlocksF fuel afterClose
       | none => scanBlocksF fuel rest)
    | none => scanBlocksF fuel rest

/-- All non-overlapping matches of the tag pattern in `l`, in order. -/
def scanBlocks (l : List Char) : List (List Char × List Char) :=
  scanBlocksF (l.length + 1) l

/-! ## JSON decoding (model of Python `json.loads`)

Used by the `options` parameter fallback and by the subprocess line reader.
The model covers the standard JSON grammar (strict strings, `null`, booleans,
numbers kept as their lexeme, arrays, objects with last-duplicate-wins keys);
the non-standard `NaN`/`Infinity` extensions are not modelled. -/

inductive Json where
  | null : Json
  | bool : Bool → Json
  | num : List Char → Json
  | str : List Char → Json
  | arr : List Json → Json
  | obj : List (List Char × Json) → Json

instance : Inhabited Json := ⟨Json.null⟩

def isJsonWs (c : Char) : Bool := c = ' ' || c = '\t' || c = '\n' || c = '\r'

def skipWs (l : List Char) : List Char := l.dropWhile isJsonWs

def escChar (c : Char) : Option Char :=
  if c = '"' then some '"'
  else if c = '\\' then some '\\'
  else if c = '/' then some '/'
  else if c = 'b' then some (Char.ofNat 8)
  else if c = 'f' then some (Char.ofNat 12)
  else if c = 'n' then some '\n'
  else if c = 'r' then some '\r'
  else if c = 't' then some '\t'
  else none

def hexVal (c : Char) : Option Nat :=
  if '0' ≤ c ∧ c ≤ '9' then some (c.toNat - '0'.toNat)
  else if 'a' ≤ c ∧ c ≤ 'f' then some (c.toNat - 'a'.toNat + 10)
  else if 'A' ≤ c ∧ c ≤ 'F' then some (c.toNat - 'A'.toNat + 10)
  else none

/-- Body of a JSON string after the opening quote: returns the decoded
characters and the input after the closing quote. -/
def jString : List Char → Option (List Char × List Char)
  | [] => none
  | '"' :: r => some ([], r)
  | '\\' :: 'u' :: h1 :: h2 :: h3 :: h4 :: r =>
    (match hexVal h1, hexVal h2, hexVal h3, hexVal h4 with
     | some a, some b, some c, some d =>
       (jString r).map fun p => (Char.ofNat (((a * 16 + b) * 16 + c) * 16 + d) :: p.1, p.2)
     | _, _, _, _ => none)
  | '\\' :: e :: r =>
    (match escChar e with
     | some c => (jString r).map fun p => (c :: p.1, p.2)
     | none => none)
  | c :: r =>
    if c.toNat < 32 then none
    else (jString r).map fun p => (c :: p.1, p.2)

/-- JSON number lexeme: `-? int frac? exp?`; returns the lexeme and the rest. -/
def jNumber (l : List Char) : Option (List Char × List Char) :=
  let (sign, r1) :=
    match l with
    | '-' :: r => (['-'], r)
    | _ => (([] : List Char), l)
  let ds := r1.takeWhile Char.isDigit
  let r2 := r1.dropWhile Char.isDigit
  if ds = [] then none
  else if ds.head? = some '0' ∧ ds.length > 1 then none
  else
    let (frac, r3) :=
      match r2 with
      | '.' :: r2' =>
        let fs := r2'.takeWhile Char.isDigit
        if fs = [] then ((none : Option (List Char)), r2)
        else (some ('.' :: fs), r2'.dropWhile Char.isDigit)
      | _ => (none, r2)
    match frac with
    | none =>
      (match r2 with
       | '.' :: _ => none
       | _ =>
         match jExp r2 with
         | none => none
         | some (es, r4) => some (sign ++ ds ++ es, r4))
    | some fs =>
      match jExp r3 with
      | none => none
      | some (es, r4) => some (sign ++ ds ++ fs ++ es, r4)
where
  jExp (l : List Char) : Option (List Char × List Char) :=
    match l with
    | 'e' :: r => jExpTail 'e' r
    | 'E' :: r => jExpTail 'E' r
    | _ => some ([], l)
  jExpTail (e : Char) (r : List Char) : Option (List Char × List Char) :=
    let (sg, r1) :=
      match r with
      | '+' :: r' => (['+'], r')
      | '-' :: r' => (['-'], r')
      | _ => (([] : List Char), r)
    let ds := r1.takeWhile Char.isDigit
    if ds = [] then none
    else some (e :: sg ++ ds, r1.dropWhile Char.isDigit)

/-- Insert-or-overwrite into an association list (Python `dict` assignment:
later duplicate keys overwrite, original position kept). -/
def upsertJ (acc : List (List Char × Json)) (k : List Char) (v : Json) :
    List (List Char × Json) :=
  if acc.any (fun p => p.1 == k) then
    acc.map fun p => if p.1 == k then (k, v) else p
  else acc ++ [(k, v)]

inductive JMode where
  | value : JMode
  | arrTail : List Json → JMode
  | objTail : List (List Char × Json) → JMode

/-- Recursive JSON value parser (fuel-driven; `jsonParse` supplies enough). -/
def jRun : Nat → JMode → List Char → Option (Json × List Char)
  | 0, _, _ => none
  | f + 1, JMode.value, l =>
    (match skipWs l with
     | 'n' :: 'u' :: 'l' :: 'l' :: r => some (Json.null, r)
     | 't' :: 'r' :: 'u' :: 'e' :: r => some (Json.bool true, r)
     | 'f' :: 'a' :: 'l' :: 's' :: 'e' :: r => some (Json.bool false, r)
     | '"' :: r => (jString r).map fun p => (Json.str p.1, p.2)
     | '[' :: r =>
       (match skipWs r with
        | ']' :: r2 => some (Json.arr [], r2)
        | _ => jRun f (JMode.arrTail []) r)
     | '\x7b' :: r =>
       (match skipWs r with
        | '\x7d' :: r2 => some (Json.obj [], r2)
        | _ => jRun f (JMode.objTail []) r)
     | other => (jNumber other).map fun p => (Json.num p.1, p.2))
  | f + 1, JMode.arrTail acc, l =>
    (match jRun f JMode.value l with
     | none => none
     | some (v, r) =>
       match skipWs r with
       | ',' :: r2 => jRun f (JMode.arrTail (acc ++ [v])) r2
       | ']' :: r2 => some (Json.arr (acc ++ [v]), r2)
       | _ => none)
  | f + 1, JMode.objTail acc, l =>
    (match skipWs l with
     | '"' :: r =>
       (match jString r with
        | none => none
        | some (k, r2) =>
          match skipWs r2 with
          | ':' :: r3 =>
            (match jRun f JMode.value r3 with
             | none => none
             | some (v, r4) =>
               match skipWs r4 with
               | ',' :: r5 => jRun f (JMode.objTail (upsertJ acc k v)) r5
               | '\x7d' :: r5 => some (Json.obj (upsertJ acc k v), r5)
               | _ => none)
          | _ => none)
     | _ => none)

/-- Model of `json.loads`: parse one value, require only whitespace after it. -/
def jsonParse (l : List Char) : Option Json :=
  match jRun (2 * l.length + 16) JMode.value l with
  | some (v, r) => if skipWs r = [] then some v else none
  | none => none

/-! ## Parameter decoding and invocation extraction

Model of the post-stream parse shared verbatim by both providers
(openai_provider.py lines 63-101, claude_code_provider.py lines 173-207). -/

/-- A decoded parameter value: a plain string, or (for `options` values that
decode) the structured `json.loads` result. -/
inductive ParamValue where
  | str : List Char → ParamValue
  | json : Json → ParamValue

instance : Inhabited ParamValue := ⟨ParamValue.str []⟩

/-- The per-parameter value logic: strip, then opportunistically decode an
`options` value that begins with `[`, keeping the raw string on failure. -/
def paramValue (name : List Char) (raw : List Char) : ParamValue :=
  if name == "options".data && startsWith ['['] (trim raw) then
    match jsonParse (trim raw) with
    | some j => ParamValue.json j
    | none => ParamValue.str (trim raw)
  else ParamValue.str (trim raw)

/-- Python dict insertion for parameters (duplicate parameter names overwrite). -/
def upsertP (acc : List (List Char × ParamValue)) (k : List Char) (v : ParamValue) :
    List (List Char × ParamValue) :=
  if acc.any (fun p => p.1 == k) then
    acc.map fun p => if p.1 == k then (k, v) else p
  else acc ++ [(k, v)]

/-- Second extraction pass: immediate parameter tags of a block body. -/
def parseParams (body : List Char) : List (List Char × ParamValue) :=
  (scanBlocks body).foldl (fun acc p => upsertP acc p.1 (paramValue p.1 p.2)) []

/-- The whitelist `valid_tools` of both providers. -/
def validTools : List (List Char) :=
  ["read_file".data, "write_to_file".data, "search_files".data,
   "attempt_completion".data, "plan_mode_respond".data, "ask_followup_question".data]

structure Inv where
  name : List Char
  params : List (List Char × ParamValue)

instance : Inhabited Inv := ⟨⟨[], []⟩⟩

/-- First extraction pass plus whitelist filter: the full post-hoc parse of the
accumulated text.  Matched blocks with a non-whitelisted name are skipped but
still consume their span (exactly as `re.finditer` + `continue` does). -/
def parseInvs (text : List Char) : List Inv :=
  (scanBlocks text).filterMap fun b =>
    if validTools.contains b.1 then some ⟨b.1, parseParams b.2⟩ else none

/-! ## Provider stream models

`StreamFragment`s: both variants first yield all text, then the parsed
invocations of the accumulated text. -/

inductive Chunk where
  | text : String → Chunk
  | toolUse : String → String → List (List Char × ParamValue) → Chunk

def isTextChunk : Chunk → Bool
  | Chunk.text _ => true
  | _ => false

def isToolUseChunk : Chunk → Bool
  | Chunk.toolUse _ _ _ => true
  | _ => false

/-- The `tool_use` chunks yielded after streaming: one per parsed invocation,
with the name-derived id `f"tool_{tool_name}"`. -/
def toolUseChunks (full : List Char) : List Chunk :=
  (parseInvs full).map fun inv =>
    Chunk.toolUse (String.mk inv.name) ("tool_" ++ String.mk inv.name) inv.params

/-- OpenAIProvider.stream_message: yield a text chunk per truthy delta while
accumulating `full_text`, then the invocations parsed from `full_text`. -/
def openaiStream (deltas : List String) : List Chunk :=
  let ts := deltas.filter fun d => !(d == "")
  ts.map Chunk.text ++ toolUseChunks (ts.foldl (fun a d => a ++ d) "").data

/-- The subprocess line reader (claude_code_provider.py lines 111-133 plus
`_parse_chunk`): strip each line, skip empties, try to decode the pending
buffer plus the line; on failure buffer it, on success yield the record. -/
def decodeLines : List (List Char) → List Char → List Json
  | [], _ => []
  | l :: ls, pending =>
    if trim l = [] then decodeLines ls pending
    else
      match jsonParse (pending ++ trim l) with
      | some v => v :: decodeLines ls []
      | none => decodeLines ls (pending ++ trim l)

def lookupJ (fs : List (List Char × Json)) (k : List Char) : Option Json :=
  (fs.find? fun p => p.1 == k).map fun p => p.2

/-- Text contributed by one decoded record: a bare JSON string is a text chunk;
an assistant message record contributes its `text` content parts; every other
record shape is silently skipped.  (A record whose `message`/`content`/`text`
fields have the wrong type would crash the Python reader; such records do not
occur in the protocol and are mapped to no text here.) -/
def recordTexts : Json → List (List Char)
  | Json.str s => [s]
  | Json.obj fields =>
    (match lookupJ fields "type".data with
     | some (Json.str ty) =>
       if ty == "assistant".data && fields.any (fun p => p.1 == "message".data) then
         match lookupJ fields "message".data with
         | some (Json.obj m) =>
           (match lookupJ m "content".data with
            | some (Json.arr blocks) =>
              blocks.filterMap fun b =>
                match b with
                | Json.obj bf =>
                  (match lookupJ bf "type".data with
                   | some (Json.str bt) =>
                     if bt == "text".data then
                       match lookupJ bf "text".data with
                       | some (Json.str t) => some t
                       | _ => some []
                     else none
                   | _ => none)
                | _ => none
            | _ => [])
         | _ => []
       else []
     | _ => [])
  | _ => []

/-- ClaudeCodeProvider.stream_message: decode stdout lines, yield the text of
recognized records in order while accumulating `full_text`, then the
invocations parsed from `full_text`. -/
def claudeStream (lines : List (List Char)) : List Chunk :=
  let texts := ((decodeLines lines []).map recordTexts).flatten
  texts.map (fun t => Chunk.text (String.mk t)) ++ toolUseChunks texts.flatten

/-! ## Modes and the provider-call default

`Mode` is the two-valued operating mode.  `ai_client.py`'s `stream_message`
declares `mode: str = "ACT"`; `Task.task_loop` calls it without a mode
argument, `SimpleAgent.task_loop` passes its current mode. -/

inductive Mode where
  | PLAN : Mode
  | ACT : Mode
deriving DecidableEq

/-- The `mode` parameter default of `AIClient.stream_message`. -/
def streamMessageMode : Option Mode → Mode
  | some m => m
  | none => Mode.ACT

/-- Mode selection in `SimpleAgent.run`: the operator's choice `"2"` selects
ACT, anything else keeps the default PLAN. -/
def chooseMode (choice : String) : Mode :=
  if choice == "2" then Mode.ACT else Mode.PLAN

/-! ## Conversation data -/

inductive Role where
  | user : Role
  | assistant : Role
deriving DecidableEq

structure Turn where
  role : Role
  content : String

structure ToolUse where
  name : String
  id : String
  input : List (List Char × ParamValue)

structure ToolResult where
  id : String
  content : String

/-- A tool call either returns a result string or raises (`ToolOutcome.exc`
carries `str(e)`). -/
inductive ToolOutcome where
  | ok : String → ToolOutcome
  | exc : String → ToolOutcome

def chunkTexts (cs : List Chunk) : String :=
  cs.foldl (fun a c => match c with | Chunk.text t => a ++ t | _ => a) ""

def chunkToolUses (cs : List Chunk) : List ToolUse :=
  cs.filterMap fun c =>
    match c with
    | Chunk.toolUse n i inp => some ⟨n, i, inp⟩
    | _ => none

def joinResults (rs : List ToolResult) : String :=
  String.intercalate "\n\n" (rs.map fun r => "[" ++ r.id ++ "] Result: " ++ r.content)

/-! ## The interactive turn loop (test_agent.py, SimpleAgent.task_loop)

Operator stdin is an oracle `stream : Nat → String` read at an advancing
cursor (each `input()` consumes one entry, already stripped).  Tool side
effects are an oracle `exec : Nat → name → params → ToolOutcome`, indexed by
the position of the invocation in the turn's batch. -/

/-- Tools never preceded by the human-interruption prompt. -/
def skipConfirm : List String := ["attempt_completion", "ask_followup_question", "plan_mode_respond"]

/-- `plan_only_tools` of SimpleAgent.task_loop (declared by the source; the
loop's policy check never consults it). -/
def planOnlyTools : List String := ["read_file", "search_files", "plan_mode_respond", "ask_followup_question"]

/-- `act_only_tools` of SimpleAgent.task_loop. -/
def actOnlyTools : List String := ["write_to_file", "attempt_completion"]

/-- The registered tools of both SimpleAgent and Task. -/
def agentTools : List String := ["read_file", "write_to_file", "search_files", "attempt_completion"]

/-- The mode policy as a function: an invocation is disallowed exactly when the
loop's rejection condition `mode == "PLAN" and tool_name in act_only_tools`
fires. -/
def allowed (m : Mode) (n : String) : Bool :=
  !(m == Mode.PLAN && actOnlyTools.contains n)

def rejectionMsg (n : String) : String :=
  "Error: " ++ n ++ " is not available in PLAN mode. Use plan_mode_respond to present your plan first."

def switchMsg : String := "User switched to ACT mode. You can now execute actions."

def ackMsg : String := "Plan acknowledged. Continue in PLAN mode."

def agentNudge : String := "Please use a tool to complete the task, or call attempt_completion when done."

/-- Outcome of processing one turn's batch of invocations: either
`attempt_completion` succeeded (the loop returns), or the loop proceeds with
the collected results, optional human feedback, possibly changed mode, and the
advanced stdin cursor. -/
inductive GoOut where
  | completed : GoOut
  | toNext : List ToolResult → Option String → Mode → Nat → GoOut

/-- The `for tool_use in tool_uses` body of SimpleAgent.task_loop.  Returns the
batch outcome together with the dispatch trace: one `(index, name)` entry per
actual call into `self.tools`. -/
def processToolUses (stream : Nat → String)
    (exec : Nat → String → List (List Char × ParamValue) → ToolOutcome) :
    List ToolUse → Nat → Nat → Mode → List ToolResult →
    GoOut × List (Nat × String)
  | [], _, cur, mode, res => (GoOut.toNext res none mode cur, [])
  | u :: rest, idx, cur, mode, res =>
    let pc : Nat := if skipConfirm.contains u.name then 0 else 1
    let fb : String := if skipConfirm.contains u.name then "" else stream cur
    if fb == "" then
      let cur := cur + pc
      if mode == Mode.PLAN && actOnlyTools.contains u.name then
        processToolUses stream exec rest (idx + 1) cur mode
          (res ++ [⟨u.id, rejectionMsg u.name⟩])
      else if u.name == "plan_mode_respond" then
        let sw := stream cur
        let mode' := if sw == "switch" then Mode.ACT else mode
        let content := if sw == "switch" then switchMsg else ackMsg
        processToolUses stream exec rest (idx + 1) (cur + 1) mode'
          (res ++ [⟨u.id, content⟩])
      else if agentTools.contains u.name then
        match exec idx u.name u.input with
        | ToolOutcome.ok r =>
          if u.name == "attempt_completion" then (GoOut.completed, [(idx, u.name)])
          else
            let next := processToolUses stream exec rest (idx + 1) cur mode
              (res ++ [⟨u.id, r⟩])
            (next.1, (idx, u.name) :: next.2)
        | ToolOutcome.exc e =>
          let next := processToolUses stream exec rest (idx + 1) cur mode
            (res ++ [⟨u.id, "Error: " ++ e⟩])
          (next.1, (idx, u.name) :: next.2)
      else
        processToolUses stream exec rest (idx + 1) cur mode
          (res ++ [⟨u.id, "Unknown tool: " ++ u.name⟩])
    else (GoOut.toNext res (some fb) mode (cur + pc), [])

structure AgentState where
  conv : List Turn
  mode : Mode
  userContent : String
  cursor : Nat

/-- One scripted provider turn: the chunk sequence the provider yields, the
environment-context block built for the turn, and the tool-outcome oracle. -/
structure TurnInput where
  chunks : List Chunk
  envCtx : String
  exec : Nat → String → List (List Char × ParamValue) → ToolOutcome

inductive IterOut where
  | done : List Turn → IterOut
  | toNext : AgentState → IterOut

/-- One iteration of SimpleAgent.task_loop. -/
def runIter (stream : Nat → String) (st : AgentState) (t : TurnInput) :
    IterOut × List (Nat × String) :=
  let conv1 := st.conv ++ [⟨Role.user, st.userContent ++ "\n\n" ++ t.envCtx⟩]
  let msg := chunkTexts t.chunks
  let tus := chunkToolUses t.chunks
  let conv2 := conv1 ++ [⟨Role.assistant, msg⟩]
  if tus.isEmpty then
    (IterOut.toNext ⟨conv2, st.mode, agentNudge, st.cursor⟩, [])
  else
    match processToolUses stream t.exec tus 0 st.cursor st.mode [] with
    | (GoOut.completed, tr) => (IterOut.done conv2, tr)
    | (GoOut.toNext res fb mode' cur', tr) =>
      let uc := match fb with
        | some f => "<feedback>\n" ++ f ++ "\n</feedback>"
        | none => if res.isEmpty then st.userContent else joinResults res
      (IterOut.toNext ⟨conv2, mode', uc, cur'⟩, tr)

inductive AgentResult where
  | completed : List Turn → AgentResult
  | outOfScript : AgentState → AgentResult

structure AgentRun where
  result : AgentResult
  trace : List (Nat × String)
  calls : Nat
  modes : List Mode

/-- SimpleAgent.task_loop over a finite provider script.  `calls` counts the
provider calls made; `modes` records the mode supplied to each of them (the
loop passes `self.mode`); `trace` is the concatenated dispatch trace. -/
def runAgentLoop (stream : Nat → String) (st : AgentState) :
    List TurnInput → AgentRun
  | [] => ⟨AgentResult.outOfScript st, [], 0, []⟩
  | t :: ts =>
    match runIter stream st t with
    | (IterOut.done conv, tr) => ⟨AgentResult.completed conv, tr, 1, [st.mode]⟩
    | (IterOut.toNext st', tr) =>
      let r := runAgentLoop stream st' ts
      ⟨r.result, tr ++ r.trace, r.calls + 1, st.mode :: r.modes⟩

/-- The initial state built by SimpleAgent.run: empty conversation, the chosen
mode, `<task>` wrapping, stdin cursor at the start. -/
def initialAgentState (task : String) (m : Mode) : AgentState :=
  ⟨[], m, "<task>\n" ++ task ++ "\n</task>", 0⟩

/-! ## The websocket turn loop (task.py)

`send_to_ui` wraps every websocket send in `try/except: pass`; the sink is an
oracle that may fail.  The loop runs in an exception monad so that an
unhandled sink failure would surface as `Except.error`. -/

inductive UiContent where
  | str : String → UiContent
  | toolCall : String → List (List Char × ParamValue) → UiContent
  | toolDone : String → String → UiContent
  | status : String → UiContent

structure UiEvent where
  ty : String
  content : UiContent

def Sink : Type := UiEvent → Except String Unit

/-- Task.send_to_ui: the bare `except: pass` converts every sink failure into
a successful no-op. -/
def sendToUi (sink : Sink) (ty : String) (c : UiContent) : Except String Unit :=
  match sink ⟨ty, c⟩ with
  | Except.ok _ => Except.ok ()
  | Except.error _ => Except.ok ()

/-- Task.execute_tool: emit the `tool` event, dispatch, convert an exception
into an `Error:` string, an unknown name into an `Unknown tool:` string. -/
def taskExecTool (sink : Sink)
    (exec : String → List (List Char × ParamValue) → ToolOutcome)
    (tu : ToolUse) : Except String String :=
  match sendToUi sink "tool" (UiContent.toolCall tu.name tu.input) with
  | Except.error e => Except.error e
  | Except.ok _ =>
    if agentTools.contains tu.name then
      match exec tu.name tu.input with
      | ToolOutcome.ok r =>
        (match sendToUi sink "tool_result" (UiContent.toolDone tu.name r) with
         | Except.error e => Except.error e
         | Except.ok _ => Except.ok r)
      | ToolOutcome.exc e => Except.ok ("Error: " ++ e)
    else Except.ok ("Unknown tool: " ++ tu.name)

/-- The chunk-consuming loop of Task.task_loop: text chunks are forwarded to
the sink and concatenated; tool_use chunks are executed inline, pairing each
with a ToolResult in order. -/
def taskIterChunks (sink : Sink)
    (exec : String → List (List Char × ParamValue) → ToolOutcome) :
    List Chunk → Except String (String × List ToolResult)
  | [] => Except.ok ("", [])
  | Chunk.text t :: rest =>
    (match sendToUi sink "text" (UiContent.str t) with
     | Except.error e => Except.error e
     | Except.ok _ =>
       match taskIterChunks sink exec rest with
       | Except.error e => Except.error e
       | Except.ok (m, rs) => Except.ok (t ++ m, rs))
  | Chunk.toolUse n i inp :: rest =>
    (match taskExecTool sink exec ⟨n, i, inp⟩ with
     | Except.error e => Except.error e
     | Except.ok r =>
       match taskIterChunks sink exec rest with
       | Except.error e => Except.error e
       | Except.ok (m, rs) => Except.ok (m, ⟨i, r⟩ :: rs))

def taskNudge : String := "Please use a tool to complete the task, or call attempt_completion."

structure TaskState where
  conv : List Turn
  userContent : String
  abort : Bool

structure TaskInput where
  chunks : List Chunk
  envCtx : String
  exec : String → List (List Char × ParamValue) → ToolOutcome

structure TaskRun where
  conv : List Turn
  calls : Nat
  modes : List Mode

/-- The seam between one Task.task_loop iteration and the rest of the run: a
successful continuation gains one provider call, recorded with the mode the
call received — `stream_message` is invoked with no mode argument, so that is
`streamMessageMode none`; an error propagates. -/
def mapTaskStep : Except String TaskRun → Except String TaskRun
  | Except.ok r => Except.ok ⟨r.conv, r.calls + 1, streamMessageMode none :: r.modes⟩
  | Except.error e => Except.error e

/-- Task.task_loop over a finite provider script. -/
def runTaskLoop (sink : Sink) (st : TaskState) :
    List TaskInput → Except String TaskRun
  | [] => Except.ok ⟨st.conv, 0, []⟩
  | t :: ts =>
    if st.abort then Except.ok ⟨st.conv, 0, []⟩
    else
      match taskIterChunks sink t.exec t.chunks with
      | Except.error e => Except.error e
      | Except.ok (msg, results) =>
        mapTaskStep (runTaskLoop sink
          ⟨(st.conv ++ [⟨Role.user, st.userContent ++ "\n\n" ++ t.envCtx⟩])
              ++ [⟨Role.assistant, msg⟩],
            if results.isEmpty then taskNudge else joinResults results,
            st.abort⟩ ts)

def modesOf : Except String TaskRun → List Mode
  | Except.ok r => r.modes
  | Except.error _ => []

def callsOf : Except String TaskRun → Nat
  | Except.ok r => r.calls
  | Except.error _ => 0

def isOkRun : Except String TaskRun → Bool
  | Except.ok _ => true
  | Except.error _ => false

/-- The always-working sink. -/
def okSink : Sink := fun _ => Except.ok ()

/-- Is the chunk at position `i` a tool_use fragment? -/
def isToolUseAt (cs : List Chunk) (i : Nat) : Bool :=
  match cs[i]? with
  | some c => isToolUseChunk c
  | none => false

/-- Is the chunk at position `i` a text fragment? -/
def isTextAt (cs : List Chunk) (i : Nat) : Bool :=
  match cs[i]? with
  | some c => isTextChunk c
  | none => false

/-- The sink-free denotation of `Task.execute_tool` (used to state that the
loop's behaviour does not depend on the sink). -/
def taskExecPure (exec : String → List (List Char × ParamValue) → ToolOutcome)
    (tu : ToolUse) : String :=
  if agentTools.contains tu.name then
    match exec tu.name tu.input with
    | ToolOutcome.ok r => r
    | ToolOutcome.exc e => "Error: " ++ e
  else "Unknown tool: " ++ tu.name

/-- The sink-free denotation of the chunk-consuming loop of Task.task_loop. -/
def taskIterPure (exec : String → List (List Char × ParamValue) → ToolOutcome) :
    List Chunk → String × List ToolResult
  | [] => ("", [])
  | Chunk.text t :: rest =>
    let p := taskIterPure exec rest
    (t ++ p.1, p.2)
  | Chunk.toolUse n i inp :: rest =>
    let p := taskIterPure exec rest
    (p.1, ⟨i, taskExecPure exec ⟨n, i, inp⟩⟩ :: p.2)

/-! # Lemma layer -/

/-! ## Prefix matching and earliest-occurrence splitting -/

lemma startsWith_nil {p : List Char} (h : startsWith p [] = true) : p = [] := by
  cases p with
  | nil => rfl
  | cons a q => simp [startsWith] at h

lemma startsWith_self_append (p r : List Char) : startsWith p (p ++ r) = true := by
  induction p with
  | nil => rfl
  | cons a q ih => simp [startsWith, ih]

lemma startsWith_drop {p : List Char} : ∀ {l : List Char},
    startsWith p l = true → p ++ l.drop p.length = l := by
  induction p with
  | nil => intro l _; simp
  | cons a q ih =>
    intro l h
    cases l with
    | nil => simp [startsWith] at h
    | cons c cs =>
      simp only [startsWith, Bool.and_eq_true, beq_iff_eq] at h
      obtain ⟨rfl, h2⟩ := h
      simpa using ih h2

lemma splitOnList_startsWith {pat l : List Char} (h : startsWith pat l = true) :
    splitOnList pat l = some ([], l.drop pat.length) := by
  cases l with
  | nil => simp [splitOnList, h]
  | cons c cs => simp [splitOnList, h]

lemma splitOnList_shape {pat : List Char} : ∀ {l a b : List Char},
    splitOnList pat l = some (a, b) → l = a ++ (pat ++ b) := by
  intro l
  induction l with
  | nil =>
    intro a b h
    simp only [splitOnList] at h
    split at h
    · rename_i hT
      have hp := startsWith_nil hT
      simp [hp] at h ⊢
      simp [h.1, h.2]
    · exact absurd h (by simp)
  | cons c r ih =>
    intro a b h
    simp only [splitOnList] at h
    split at h
    · rename_i hT
      simp only [Option.some.injEq, Prod.mk.injEq] at h
      obtain ⟨rfl, rfl⟩ := h
      simpa using (startsWith_drop hT).symm
    · rename_i hF
      rw [Option.map_eq_some'] at h
      obtain ⟨⟨a', b'⟩, hrec, heq⟩ := h
      simp only [Prod.mk.injEq] at heq
      obtain ⟨rfl, rfl⟩ := heq
      simpa using ih hrec

/-- `noPrefixAt pat x z = true` iff `pat` is not a prefix of any nonempty
suffix of `x` continued by `z`: the earliest occurrence of `pat` in `x ++ z`
does not start inside `x`. -/
def noPrefixAt (pat : List Char) : List Char → List Char → Bool
  | [], _ => true
  | x :: xs, z => !startsWith pat (x :: (xs ++ z)) && noPrefixAt pat xs z

lemma splitOnList_of_noPrefix {pat : List Char} : ∀ {x : List Char} (y : List Char),
    noPrefixAt pat x (pat ++ y) = true →
    splitOnList pat (x ++ (pat ++ y)) = some (x, y) := by
  intro x
  induction x with
  | nil =>
    intro y _
    rw [List.nil_append, splitOnList_startsWith (startsWith_self_append pat y)]
    simp
  | cons a xs ih =>
    intro y h
    simp only [noPrefixAt, Bool.and_eq_true, Bool.not_eq_true'] at h
    obtain ⟨h1, h2⟩ := h
    have : (a :: xs) ++ (pat ++ y) = a :: (xs ++ (pat ++ y)) := rfl
    rw [this]
    simp only [splitOnList, h1]
    rw [ih y h2]
    simp

lemma noPrefixAt_append (pat : List Char) : ∀ (X Y Z : List Char),
    noPrefixAt pat (X ++ Y) Z = (noPrefixAt pat X (Y ++ Z) && noPrefixAt pat Y Z) := by
  intro X Y Z
  induction X with
  | nil => simp [noPrefixAt]
  | cons x xs ih =>
    have e : (xs ++ Y) ++ Z = xs ++ (Y ++ Z) := List.append_assoc xs Y Z
    show (!startsWith pat (x :: ((xs ++ Y) ++ Z)) && noPrefixAt pat (xs ++ Y) Z)
        = ((!startsWith pat (x :: (xs ++ (Y ++ Z))) && noPrefixAt pat xs (Y ++ Z))
            && noPrefixAt pat Y Z)
    rw [e, ih, Bool.and_assoc]

/-! ## Scanner lemmas -/

lemma wordChar_ne {c : Char} (h : isWordChar c = true) :
    c ≠ '<' ∧ c ≠ '/' ∧ c ≠ '>' := by
  refine ⟨?_, ?_, ?_⟩ <;> rintro rfl <;> revert h <;> decide

lemma mem_takeWhile_sat {p : Char → Bool} : ∀ {l : List Char} {c : Char},
    c ∈ l.takeWhile p → p c = true := by
  intro l
  induction l with
  | nil => intro c h; simp [List.takeWhile] at h
  | cons a as ih =>
    intro c h
    by_cases hpa : p a = true
    · rw [List.takeWhile_cons, if_pos hpa] at h
      rcases List.mem_cons.mp h with rfl | h2
      · exact hpa
      · exact ih h2
    · rw [List.takeWhile_cons, if_neg hpa] at h
      simp at h

lemma takeWhile_all_append {p : Char → Bool} : ∀ {n : List Char},
    (∀ c ∈ n, p c = true) → ∀ {b : Char}, p b = false → ∀ (rest : List Char),
    (n ++ b :: rest).takeWhile p = n ∧ (n ++ b :: rest).dropWhile p = b :: rest := by
  intro n
  induction n with
  | nil =>
    intro _ b hb rest
    constructor
    · simp [List.takeWhile_cons, hb]
    · simp [List.dropWhile_cons, hb]
  | cons a as ih =>
    intro hw b hb rest
    have ha : p a = true := hw a (List.mem_cons_self a as)
    have ih' := ih (fun c hc => hw c (List.mem_cons_of_mem a hc)) hb rest
    constructor
    · simp [List.takeWhile_cons, ha, ih'.1]
    · simp [List.dropWhile_cons, ha, ih'.2]

lemma readOpenTag_shape {l n r : List Char} (h : readOpenTag l = some (n, r)) :
    l = '<' :: (n ++ '>' :: r) ∧ n ≠ [] ∧ ∀ c ∈ n, isWordChar c = true := by
  cases l with
  | nil => simp [readOpenTag] at h
  | cons c cs =>
    simp only [readOpenTag] at h
    split at h
    · rename_i hc
      subst hc
      split at h
      · exact absurd h (by simp)
      · rename_i c2 r2 heqd
        split at h
        · rename_i hcond
          obtain ⟨hc2, hne⟩ := hcond
          subst hc2
          simp only [Option.some.injEq, Prod.mk.injEq] at h
          obtain ⟨rfl, rfl⟩ := h
          refine ⟨?_, hne, fun c hc => mem_takeWhile_sat hc⟩
          have hsplit := List.takeWhile_append_dropWhile (p := isWordChar) (l := cs)
          rw [heqd] at hsplit
          rw [hsplit]
        · exact absurd h (by simp)
    · exact absurd h (by simp)

lemma readOpenTag_not_lt {c : Char} {r : List Char} (h : c ≠ '<') :
    readOpenTag (c :: r) = none := by
  simp [readOpenTag, h]

lemma readOpenTag_openTag {n : List Char} (hn : n ≠ [])
    (hw : ∀ c ∈ n, isWordChar c = true) (rest : List Char) :
    readOpenTag (openTag n ++ rest) = some (n, rest) := by
  have e : openTag n ++ rest = '<' :: (n ++ '>' :: rest) := by
    simp [openTag]
  rw [e]
  have hgt : isWordChar '>' = false := by decide
  have hsplit := takeWhile_all_append hw hgt rest
  simp only [readOpenTag, if_pos rfl, hsplit.1, hsplit.2]
  simp [hn]

/-- The scanner's fuel is irrelevant once it exceeds the input length. -/
lemma scanBlocksF_congr : ∀ (f1 : Nat) {f2 : Nat} {l : List Char},
    l.length < f1 → l.length < f2 → scanBlocksF f1 l = scanBlocksF f2 l := by
  intro f1
  induction f1 with
  | zero => intro f2 l h1 _; exact absurd h1 (Nat.not_lt_zero _)
  | succ f ih =>
    intro f2 l h1 h2
    cases f2 with
    | zero => exact absurd h2 (Nat.not_lt_zero _)
    | succ g =>
      cases l with
      | nil => rfl
      | cons c r =>
        simp only [List.length_cons] at h1 h2
        have hr : r.length < f := by omega
        have hr2 : r.length < g := by omega
        cases hro : readOpenTag (c :: r) with
        | none => simp only [scanBlocksF, hro]; exact ih hr hr2
        | some p =>
          obtain ⟨n, ao⟩ := p
          obtain ⟨hl, -, -⟩ := readOpenTag_shape hro
          have hlen := congrArg List.length hl
          simp [List.length_append] at hlen
          cases hsp : splitOnList (closeTag n) ao with
          | none => simp only [scanBlocksF, hro, hsp]; exact ih hr hr2
          | some q =>
            obtain ⟨co, ac⟩ := q
            have hlen2 := congrArg List.length (splitOnList_shape hsp)
            simp [List.length_append, closeTag] at hlen2
            simp only [scanBlocksF, hro, hsp]
            have hacf : ac.length < f := by omega
            have hacg : ac.length < g := by omega
            rw [ih hacf hacg]

/-- A step of the scanner with a successful match: the match is emitted and
scanning resumes after it. -/
lemma scanBlocks_cons_some {l n ao co ac : List Char}
    (h1 : readOpenTag l = some (n, ao))
    (h2 : splitOnList (closeTag n) ao = some (co, ac)) :
    scanBlocks l = (n, co) :: scanBlocks ac := by
  obtain ⟨hl, -, -⟩ := readOpenTag_shape h1
  cases l with
  | nil => simp [readOpenTag] at h1
  | cons c r =>
    have hlen := congrArg List.length hl
    simp [List.length_append] at hlen
    have hlen2 := congrArg List.length (splitOnList_shape h2)
    simp [List.length_append, closeTag] at hlen2
    show scanBlocksF ((c :: r).length + 1) (c :: r) = _
    simp only [scanBlocksF, h1, h2, List.length_cons]
    congr 1
    show scanBlocksF (r.length + 1) ac = scanBlocksF (ac.length + 1) ac
    exact scanBlocksF_congr _ (by omega) (Nat.lt_succ_self _)

lemma scanBlocks_cons_none_open {c : Char} {r : List Char}
    (h : readOpenTag (c :: r) = none) : scanBlocks (c :: r) = scanBlocks r := by
  show scanBlocksF ((c :: r).length + 1) (c :: r) = _
  simp only [scanBlocksF, h]
  rfl

lemma scanBlocks_cons_none_close {c : Char} {r n ao : List Char}
    (h1 : readOpenTag (c :: r) = some (n, ao))
    (h2 : splitOnList (closeTag n) ao = none) :
    scanBlocks (c :: r) = scanBlocks r := by
  show scanBlocksF ((c :: r).length + 1) (c :: r) = _
  simp only [scanBlocksF, h1, h2]
  rfl

lemma scanBlocks_skip : ∀ {A : List Char}, (∀ c ∈ A, c ≠ '<') →
    ∀ (l : List Char), scanBlocks (A ++ l) = scanBlocks l := by
  intro A
  induction A with
  | nil => intro _ l; rfl
  | cons a A' ih =>
    intro h l
    have ha : a ≠ '<' := h a (List.mem_cons_self a A')
    have : (a :: A') ++ l = a :: (A' ++ l) := rfl
    rw [this, scanBlocks_cons_none_open (readOpenTag_not_lt ha)]
    exact ih (fun c hc => h c (List.mem_cons_of_mem a hc)) l

lemma scanBlocks_closeTag {p : List Char} (hp : ∀ c ∈ p, isWordChar c = true) :
    scanBlocks (closeTag p) = [] := by
  have e : closeTag p = '<' :: ('/' :: p ++ ['>']) := by simp [closeTag]
  have hro : readOpenTag ('<' :: ('/' :: p ++ ['>'])) = none := by
    have hsl : isWordChar '/' = false := by decide
    simp only [readOpenTag, if_pos rfl]
    rw [show ('/' :: p ++ ['>'] : List Char) = '/' :: (p ++ ['>']) from rfl]
    rw [List.takeWhile_cons, List.dropWhile_cons]
    simp [hsl]
  rw [e, scanBlocks_cons_none_open hro]
  have hfree : ∀ c ∈ ('/' :: p ++ ['>'] : List Char), c ≠ '<' := by
    intro c hc
    rcases List.mem_append.mp hc with hc1 | hc2
    · rcases List.mem_cons.mp hc1 with rfl | hcp
      · decide
      · exact (wordChar_ne (hp c hcp)).1
    · simp at hc2
      subst hc2
      decide
  have := scanBlocks_skip hfree []
  rw [List.append_nil] at this
  rw [this]
  rfl

/-! ## Occurrence-freeness of close tags in the relevant segments -/

lemma noPrefixAt_free {t X : List Char} (h : ∀ c ∈ X, c ≠ '<') (Z : List Char) :
    noPrefixAt (closeTag t) X Z = true := by
  induction X with
  | nil => rfl
  | cons x xs ih =>
    have hx : x ≠ '<' := h x (List.mem_cons_self x xs)
    have hsw : startsWith (closeTag t) (x :: (xs ++ Z)) = false := by
      simp only [closeTag, startsWith, Bool.and_eq_false_iff]
      left
      simp [beq_eq_false_iff_ne]
      exact fun he => hx he.symm
    simp only [noPrefixAt, hsw, Bool.not_false, Bool.true_and]
    exact ih (fun c hc => h c (List.mem_cons_of_mem x hc))

lemma noPrefixAt_openTag {t p : List Char} (hp : ∀ c ∈ p, isWordChar c = true)
    (Z : List Char) : noPrefixAt (closeTag t) (openTag p) Z = true := by
  have e : openTag p = '<' :: (p ++ ['>']) := by simp [openTag]
  rw [e]
  have hfree : ∀ c ∈ (p ++ ['>'] : List Char), c ≠ '<' := by
    intro c hc
    rcases List.mem_append.mp hc with hc1 | hc2
    · exact (wordChar_ne (hp c hc1)).1
    · simp at hc2; subst hc2; decide
  have hsw : startsWith (closeTag t) ('<' :: ((p ++ ['>']) ++ Z)) = false := by
    simp only [closeTag, startsWith]
    cases p with
    | nil => simp [startsWith]
    | cons a p' =>
      have ha : a ≠ '/' := (wordChar_ne (hp a (List.mem_cons_self a p'))).2.1
      have : (((a :: p') ++ ['>']) ++ Z) = a :: ((p' ++ ['>']) ++ Z) := by simp
      rw [this]
      simp only [startsWith]
      simp [beq_eq_false_iff_ne]
      intro h
      exact absurd h.symm ha
  simp only [noPrefixAt, hsw, Bool.not_false, Bool.true_and]
  exact noPrefixAt_free hfree Z

/-- Distinct word-only tag names never confuse one close tag for another. -/
lemma startsWith_names_false : ∀ (t p : List Char),
    (∀ c ∈ t, isWordChar c = true) → (∀ c ∈ p, isWordChar c = true) → t ≠ p →
    ∀ (rest : List Char), startsWith (t ++ ['>']) (p ++ '>' :: rest) = false := by
  intro t
  induction t with
  | nil =>
    intro p _ hp hne rest
    cases p with
    | nil => exact absurd rfl hne
    | cons c p' =>
      have hc : c ≠ '>' := (wordChar_ne (hp c (List.mem_cons_self c p'))).2.2
      show startsWith ['>'] (c :: (p' ++ '>' :: rest)) = false
      simp [startsWith, beq_eq_false_iff_ne]
      exact fun he => hc he.symm
  | cons a t' ih =>
    intro p hpt hp hne rest
    have ha : isWordChar a = true := hpt a (List.mem_cons_self a t')
    cases p with
    | nil =>
      show startsWith (a :: (t' ++ ['>'])) ('>' :: rest) = false
      simp only [startsWith, Bool.and_eq_false_iff]
      left
      simp [beq_eq_false_iff_ne]
      exact (wordChar_ne ha).2.2
    | cons b p' =>
      show startsWith (a :: (t' ++ ['>'])) (b :: (p' ++ '>' :: rest)) = false
      simp only [startsWith, Bool.and_eq_false_iff]
      by_cases hab : a = b
      · right
        subst hab
        have hne' : t' ≠ p' := by
          intro he; exact hne (by rw [he])
        exact ih p' (fun c hc => hpt c (List.mem_cons_of_mem a hc))
          (fun c hc => hp c (List.mem_cons_of_mem a hc)) hne' rest
      · left
        simp [beq_eq_false_iff_ne]
        exact hab

lemma noPrefixAt_closeTag_seg {t p : List Char}
    (ht : ∀ c ∈ t, isWordChar c = true) (hp : ∀ c ∈ p, isWordChar c = true)
    (hne : t ≠ p) (Z : List Char) :
    noPrefixAt (closeTag t) (closeTag p) Z = true := by
  have e : closeTag p = '<' :: ('/' :: (p ++ ['>'])) := by simp [closeTag]
  rw [e]
  have hsw : startsWith (closeTag t) ('<' :: (('/' :: (p ++ ['>'])) ++ Z)) = false := by
    show startsWith ('<' :: ('/' :: (t ++ ['>'])))
        ('<' :: ('/' :: ((p ++ ['>']) ++ Z))) = false
    simp only [startsWith, beq_self_eq_true, Bool.true_and]
    have : ((p ++ ['>']) ++ Z) = p ++ '>' :: Z := by simp
    rw [this]
    exact startsWith_names_false t p ht hp hne Z
  simp only [noPrefixAt, hsw, Bool.not_false, Bool.true_and]
  have hfree : ∀ c ∈ ('/' :: (p ++ ['>']) : List Char), c ≠ '<' := by
    intro c hc
    rcases List.mem_cons.mp hc with rfl | hc1
    · decide
    · rcases List.mem_append.mp hc1 with hc2 | hc3
      · exact (wordChar_ne (hp c hc2)).1
      · simp at hc3; subst hc3; decide
  exact noPrefixAt_free hfree Z

/-! ## Two-level extraction of a block with a same-named nested parameter tag -/

lemma validTools_words {t : List Char} (h : validTools.contains t = true) :
    t ≠ [] ∧ ∀ c ∈ t, isWordChar c = true := by
  have hm : t ∈ validTools := by
    simpa using h
  fin_cases hm <;> exact ⟨by decide, by decide⟩

/-- The parameter pass truncates a same-named nested tag: scanning
`<P>` `A <P> B` `</P>` `C` `</P>` yields the single block `(P, A <P> B)` —
the body ends at the *first* `</P>`, not the outer one. -/
lemma scanBlocks_nested_param {P A B C : List Char}
    (hP : P ≠ []) (hPw : ∀ c ∈ P, isWordChar c = true)
    (hA : ∀ c ∈ A, c ≠ '<') (hB : ∀ c ∈ B, c ≠ '<') (hC : ∀ c ∈ C, c ≠ '<') :
    scanBlocks (openTag P ++ A ++ openTag P ++ B ++ closeTag P ++ C ++ closeTag P)
      = [(P, A ++ openTag P ++ B)] := by
  have hbody : openTag P ++ A ++ openTag P ++ B ++ closeTag P ++ C ++ closeTag P
      = openTag P ++ ((A ++ openTag P ++ B) ++ (closeTag P ++ (C ++ closeTag P))) := by
    simp [List.append_assoc]
  have hro := readOpenTag_openTag hP hPw
    ((A ++ openTag P ++ B) ++ (closeTag P ++ (C ++ closeTag P)))
  have hnp : noPrefixAt (closeTag P) (A ++ openTag P ++ B)
      (closeTag P ++ (C ++ closeTag P)) = true := by
    simp [noPrefixAt_append, noPrefixAt_openTag hPw, noPrefixAt_free hA,
      noPrefixAt_free hB]
  have hsp := splitOnList_of_noPrefix (C ++ closeTag P) hnp
  have htail : scanBlocks (C ++ closeTag P) = [] := by
    rw [scanBlocks_skip hC, scanBlocks_closeTag hPw]
  rw [hbody, scanBlocks_cons_some hro hsp, htail]

/-- The block pass consumes the whole outer block even with the nested tag
inside, because the close tags of the inner parameter name never match the
tool's close tag. -/
lemma scanBlocks_nested_block {T P A B C : List Char}
    (hT : T ≠ []) (hTw : ∀ c ∈ T, isWordChar c = true)
    (hPw : ∀ c ∈ P, isWordChar c = true) (hne : T ≠ P)
    (hA : ∀ c ∈ A, c ≠ '<') (hB : ∀ c ∈ B, c ≠ '<') (hC : ∀ c ∈ C, c ≠ '<') :
    scanBlocks (openTag T ++ (openTag P ++ A ++ openTag P ++ B ++ closeTag P ++ C ++ closeTag P) ++ closeTag T)
      = [(T, openTag P ++ A ++ openTag P ++ B ++ closeTag P ++ C ++ closeTag P)] := by
  set BODY := openTag P ++ A ++ openTag P ++ B ++ closeTag P ++ C ++ closeTag P with hBODY
  have htext : openTag T ++ BODY ++ closeTag T = openTag T ++ (BODY ++ (closeTag T ++ [])) := by
    simp [List.append_assoc]
  have hro := readOpenTag_openTag hT hTw (BODY ++ (closeTag T ++ []))
  have hnp : noPrefixAt (closeTag T) BODY (closeTag T ++ []) = true := by
    rw [hBODY]
    simp [noPrefixAt_append, noPrefixAt_openTag hPw, noPrefixAt_free hA,
      noPrefixAt_free hB, noPrefixAt_free hC,
      noPrefixAt_closeTag_seg hTw hPw hne]
  have hsp := splitOnList_of_noPrefix [] hnp
  rw [htext, scanBlocks_cons_some hro hsp]
  rfl

/-! ## Line-reader step lemmas -/

lemma decodeLines_cons_blank {l : List Char} {ls : List (List Char)}
    {pending : List Char} (h : trim l = []) :
    decodeLines (l :: ls) pending = decodeLines ls pending := by
  simp only [decodeLines]
  rw [if_pos h]

lemma decodeLines_cons_ok {l : List Char} {ls : List (List Char)}
    {pending : List Char} {v : Json} (h : trim l ≠ [])
    (hv : jsonParse (pending ++ trim l) = some v) :
    decodeLines (l :: ls) pending = v :: decodeLines ls [] := by
  simp only [decodeLines]
  rw [if_neg h, hv]

lemma decodeLines_cons_buffer {l : List Char} {ls : List (List Char)}
    {pending : List Char} (h : trim l ≠ [])
    (hv : jsonParse (pending ++ trim l) = none) :
    decodeLines (l :: ls) pending = decodeLines ls (pending ++ trim l) := by
  simp only [decodeLines]
  rw [if_neg h, hv]

/-! ## Fragment-ordering lemma -/

lemma text_before_tool {A B : List Chunk}
    (hA : ∀ c ∈ A, isTextChunk c = true)
    (hB : ∀ c ∈ B, isTextChunk c = false) :
    ∀ i j, i ≤ j → isToolUseAt (A ++ B) i = true → isTextAt (A ++ B) j = false := by
  intro i j hij hi
  unfold isToolUseAt at hi
  unfold isTextAt
  cases hgj : (A ++ B)[j]? with
  | none => rfl
  | some cj =>
    by_cases hiA : i < A.length
    · exfalso
      have he : (A ++ B)[i]? = A[i]? := List.getElem?_append_left hiA
      rw [he] at hi
      cases hga : A[i]? with
      | none => rw [hga] at hi; simp at hi
      | some ci =>
        rw [hga] at hi
        have hmem : ci ∈ A := List.getElem?_mem hga
        have ht := hA ci hmem
        cases ci <;> simp_all [isTextChunk, isToolUseChunk]
    · have hjA : A.length ≤ j := le_trans (Nat.le_of_not_lt hiA) hij
      have he : (A ++ B)[j]? = B[j - A.length]? := List.getElem?_append_right hjA
      rw [he] at hgj
      have hmem : cj ∈ B := List.getElem?_mem hgj
      exact hB cj hmem

/-! ## Task-loop lemmas -/

lemma sendToUi_ok (sink : Sink) (ty : String) (c : UiContent) :
    sendToUi sink ty c = Except.ok () := by
  unfold sendToUi
  cases sink ⟨ty, c⟩ <;> rfl

lemma taskExecTool_eq (sink : Sink)
    (exec : String → List (List Char × ParamValue) → ToolOutcome) (tu : ToolUse) :
    taskExecTool sink exec tu = Except.ok (taskExecPure exec tu) := by
  unfold taskExecTool taskExecPure
  rw [sendToUi_ok]
  by_cases h : agentTools.contains tu.name = true
  · simp only [if_pos h]
    cases hx : exec tu.name tu.input with
    | ok r => simp [sendToUi_ok]
    | exc e => rfl
  · simp only [if_neg h]

lemma taskIterChunks_eq (sink : Sink)
    (exec : String → List (List Char × ParamValue) → ToolOutcome) :
    ∀ cs : List Chunk,
      taskIterChunks sink exec cs = Except.ok (taskIterPure exec cs) := by
  intro cs
  induction cs with
  | nil => rfl
  | cons c rest ih =>
    cases c with
    | text t =>
      simp only [taskIterChunks, sendToUi_ok, ih, taskIterPure]
    | toolUse n i inp =>
      simp only [taskIterChunks, taskExecTool_eq, ih, taskIterPure]

lemma runTaskLoop_cons (sink : Sink) (st : TaskState) (t : TaskInput)
    (ts : List TaskInput) (hab : st.abort = false) :
    runTaskLoop sink st (t :: ts)
      = mapTaskStep (runTaskLoop sink
          ⟨(st.conv ++ [⟨Role.user, st.userContent ++ "\n\n" ++ t.envCtx⟩])
              ++ [⟨Role.assistant, (taskIterPure t.exec t.chunks).1⟩],
            if (taskIterPure t.exec t.chunks).2.isEmpty then taskNudge
            else joinResults (taskIterPure t.exec t.chunks).2,
            st.abort⟩ ts) := by
  simp only [runTaskLoop, hab, taskIterChunks_eq]
  simp

lemma isOkRun_mapTaskStep (x : Except String TaskRun) :
    isOkRun (mapTaskStep x) = isOkRun x := by
  cases x <;> rfl

lemma runTaskLoop_sink_free (sink : Sink) : ∀ (ts : List TaskInput) (st : TaskState),
    runTaskLoop sink st ts = runTaskLoop okSink st ts := by
  intro ts
  induction ts with
  | nil => intro st; rfl
  | cons t ts ih =>
    intro st
    by_cases hab : st.abort = true
    · simp [runTaskLoop, hab]
    · simp only [Bool.not_eq_true] at hab
      rw [runTaskLoop_cons sink st t ts hab, runTaskLoop_cons okSink st t ts hab, ih]

lemma runTaskLoop_isOk (sink : Sink) : ∀ (ts : List TaskInput) (st : TaskState),
    isOkRun (runTaskLoop sink st ts) = true := by
  intro ts
  induction ts with
  | nil => intro st; rfl
  | cons t ts ih =>
    intro st
    by_cases hab : st.abort = true
    · simp [runTaskLoop, hab, isOkRun]
    · simp only [Bool.not_eq_true] at hab
      rw [runTaskLoop_cons sink st t ts hab, isOkRun_mapTaskStep]
      exact ih _

/-- Task.task_loop executes every tool_use chunk of a turn inline, in order:
the results pair 1:1 with the batch's invocations — there is no completion
check, so an `attempt_completion` in the batch is dispatched like any other
tool and the invocations after it are dispatched too. -/
lemma taskIterPure_results
    (exec : String → List (List Char × ParamValue) → ToolOutcome) :
    ∀ cs : List Chunk,
      (taskIterPure exec cs).2
        = (chunkToolUses cs).map fun tu => ⟨tu.id, taskExecPure exec tu⟩ := by
  intro cs
  induction cs with
  | nil => rfl
  | cons c rest ih =>
    cases c with
    | text t => simpa [taskIterPure, chunkToolUses] using ih
    | toolUse n i inp => simpa [taskIterPure, chunkToolUses] using ih

lemma taskIterPure_no_tools
    (exec : String → List (List Char × ParamValue) → ToolOutcome) :
    ∀ cs : List Chunk, chunkToolUses cs = [] → (taskIterPure exec cs).2 = [] := by
  intro cs
  induction cs with
  | nil => intro _; rfl
  | cons c rest ih =>
    intro h
    cases c with
    | text t =>
      simp only [chunkToolUses, List.filterMap_cons] at h
      simp only [taskIterPure]
      exact ih (by simpa [chunkToolUses] using h)
    | toolUse n i inp =>
      simp [chunkToolUses, List.filterMap_cons] at h

lemma mapTaskStep_modes {x : Except String TaskRun}
    (h : modesOf x = List.replicate (callsOf x) Mode.ACT) :
    modesOf (mapTaskStep x) = List.replicate (callsOf (mapTaskStep x)) Mode.ACT := by
  cases x with
  | error e => rfl
  | ok r =>
    simp only [modesOf, callsOf] at h
    simp [mapTaskStep, modesOf, callsOf, streamMessageMode, h, List.replicate_succ]

/-- Every provider call made by Task.task_loop receives the adapter's default
mode ACT (the loop never passes a mode argument). -/
lemma runTaskLoop_modes (sink : Sink) : ∀ (ts : List TaskInput) (st : TaskState),
    modesOf (runTaskLoop sink st ts)
      = List.replicate (callsOf (runTaskLoop sink st ts)) Mode.ACT := by
  intro ts
  induction ts with
  | nil => intro st; rfl
  | cons t ts ih =>
    intro st
    by_cases hab : st.abort = true
    · simp [runTaskLoop, hab, modesOf, callsOf]
    · simp only [Bool.not_eq_true] at hab
      rw [runTaskLoop_cons sink st t ts hab]
      exact mapTaskStep_modes (ih _)

/-! ## Interactive-loop step lemmas

Each lemma describes one step of the `for tool_use in tool_uses` body under a
stated branch condition. -/

lemma processToolUses_rejected {s : Nat → String}
    {e : Nat → String → List (List Char × ParamValue) → ToolOutcome}
    {u : ToolUse} {rest : List ToolUse} {idx cur : Nat} {mode : Mode}
    {res : List ToolResult}
    (hallow : allowed mode u.name = false)
    (hfb : skipConfirm.contains u.name = true ∨ s cur = "") :
    processToolUses s e (u :: rest) idx cur mode res
      = processToolUses s e rest (idx + 1)
          (cur + (if skipConfirm.contains u.name then 0 else 1)) mode
          (res ++ [⟨u.id, rejectionMsg u.name⟩]) := by
  have hcondm : mode = Mode.PLAN ∧ u.name ∈ actOnlyTools := by
    unfold allowed at hallow
    simpa using hallow
  by_cases hskip : skipConfirm.contains u.name = true
  · have hskipm : u.name ∈ skipConfirm := by simpa using hskip
    simp [processToolUses, hskipm, hcondm.1, hcondm.2]
  · simp only [Bool.not_eq_true] at hskip
    have hskipm : u.name ∉ skipConfirm := by simpa using hskip
    have hs : s cur = "" := by
      rcases hfb with h | h
      · rw [hskip] at h; exact absurd h (by simp)
      · exact h
    simp [processToolUses, hskipm, hs, hcondm.1, hcondm.2]

lemma processToolUses_dispatch_exc {s : Nat → String}
    {e : Nat → String → List (List Char × ParamValue) → ToolOutcome}
    {u : ToolUse} {rest : List ToolUse} {idx cur : Nat} {mode : Mode}
    {res : List ToolResult} {ex : String}
    (hallow : allowed mode u.name = true)
    (hpmr : u.name ≠ "plan_mode_respond")
    (htool : agentTools.contains u.name = true)
    (hexec : e idx u.name u.input = ToolOutcome.exc ex)
    (hfb : skipConfirm.contains u.name = true ∨ s cur = "") :
    processToolUses s e (u :: rest) idx cur mode res
      = ((processToolUses s e rest (idx + 1)
            (cur + (if skipConfirm.contains u.name then 0 else 1)) mode
            (res ++ [⟨u.id, "Error: " ++ ex⟩])).1,
         (idx, u.name) ::
           (processToolUses s e rest (idx + 1)
             (cur + (if skipConfirm.contains u.name then 0 else 1)) mode
             (res ++ [⟨u.id, "Error: " ++ ex⟩])).2) := by
  have hcondm : ¬(mode = Mode.PLAN ∧ u.name ∈ actOnlyTools) := by
    unfold allowed at hallow
    simp at hallow
    rintro ⟨h1, h2⟩
    rcases hallow with h | h
    · exact h h1
    · exact h h2
  have htoolm : u.name ∈ agentTools := by simpa using htool
  by_cases hskip : skipConfirm.contains u.name = true
  · have hskipm : u.name ∈ skipConfirm := by simpa using hskip
    simp [processToolUses, hskipm, hcondm, hpmr, htoolm, hexec]
  · simp only [Bool.not_eq_true] at hskip
    have hskipm : u.name ∉ skipConfirm := by simpa using hskip
    have hs : s cur = "" := by
      rcases hfb with h | h
      · rw [hskip] at h; exact absurd h (by simp)
      · exact h
    simp [processToolUses, hskipm, hs, hcondm, hpmr, htoolm, hexec]

lemma processToolUses_unknown {s : Nat → String}
    {e : Nat → String → List (List Char × ParamValue) → ToolOutcome}
    {u : ToolUse} {rest : List ToolUse} {idx cur : Nat} {mode : Mode}
    {res : List ToolResult}
    (hallow : allowed mode u.name = true)
    (hpmr : u.name ≠ "plan_mode_respond")
    (htool : agentTools.contains u.name = false)
    (hfb : skipConfirm.contains u.name = true ∨ s cur = "") :
    processToolUses s e (u :: rest) idx cur mode res
      = processToolUses s e rest (idx + 1)
          (cur + (if skipConfirm.contains u.name then 0 else 1)) mode
          (res ++ [⟨u.id, "Unknown tool: " ++ u.name⟩]) := by
  have hcondm : ¬(mode = Mode.PLAN ∧ u.name ∈ actOnlyTools) := by
    unfold allowed at hallow
    simp at hallow
    rintro ⟨h1, h2⟩
    rcases hallow with h | h
    · exact h h1
    · exact h h2
  have htoolm : u.name ∉ agentTools := by simpa using htool
  by_cases hskip : skipConfirm.contains u.name = true
  · have hskipm : u.name ∈ skipConfirm := by simpa using hskip
    simp [processToolUses, hskipm, hcondm, hpmr, htoolm]
  · simp only [Bool.not_eq_true] at hskip
    have hskipm : u.name ∉ skipConfirm := by simpa using hskip
    have hs : s cur = "" := by
      rcases hfb with h | h
      · rw [hskip] at h; exact absurd h (by simp)
      · exact h
    simp [processToolUses, hskipm, hs, hcondm, hpmr, htoolm]

/-- With an all-empty operator input stream and mode ACT, processing any
invocation other than `attempt_completion` continues to the rest of the batch,
possibly after one dispatch recorded for the invocation's own index. -/
lemma processToolUses_step_continue {s : Nat → String}
    {e : Nat → String → List (List Char × ParamValue) → ToolOutcome}
    (hs : ∀ n, s n = "")
    {u : ToolUse} (hu : u.name ≠ "attempt_completion")
    (rest : List ToolUse) (idx cur : Nat) (res : List ToolResult) :
    (∃ cur' res',
      processToolUses s e (u :: rest) idx cur Mode.ACT res
        = processToolUses s e rest (idx + 1) cur' Mode.ACT res')
    ∨ (∃ cur' res',
      processToolUses s e (u :: rest) idx cur Mode.ACT res
        = ((processToolUses s e rest (idx + 1) cur' Mode.ACT res').1,
           (idx, u.name) :: (processToolUses s e rest (idx + 1) cur' Mode.ACT res').2)) := by
  have hplan : ¬(Mode.ACT = Mode.PLAN ∧ u.name ∈ actOnlyTools) :=
    fun h => absurd h.1 (by decide)
  by_cases hpmr : u.name = "plan_mode_respond"
  · left
    have hskipm : u.name ∈ skipConfirm := by rw [hpmr]; decide
    have hlit : ("plan_mode_respond" : String) ∈ skipConfirm := by decide
    exact ⟨cur + 1, res ++ [⟨u.id, ackMsg⟩],
      by simp [processToolUses, hskipm, hplan, hpmr, hs, hlit]⟩
  · by_cases htool : u.name ∈ agentTools
    · cases hx : e idx u.name u.input with
      | ok r =>
        right
        refine ⟨cur + (if u.name ∈ skipConfirm then 0 else 1), res ++ [⟨u.id, r⟩], ?_⟩
        by_cases hskip : u.name ∈ skipConfirm
        · simp [processToolUses, hskip, hplan, hpmr, htool, hx, hs, hu]
        · simp [processToolUses, hskip, hplan, hpmr, htool, hx, hs, hu]
      | exc ex =>
        right
        refine ⟨cur + (if u.name ∈ skipConfirm then 0 else 1),
          res ++ [⟨u.id, "Error: " ++ ex⟩], ?_⟩
        by_cases hskip : u.name ∈ skipConfirm
        · simp [processToolUses, hskip, hplan, hpmr, htool, hx, hs]
        · simp [processToolUses, hskip, hplan, hpmr, htool, hx, hs]
    · left
      refine ⟨cur + (if u.name ∈ skipConfirm then 0 else 1),
        res ++ [⟨u.id, "Unknown tool: " ++ u.name⟩], ?_⟩
      by_cases hskip : u.name ∈ skipConfirm
      · simp [processToolUses, hskip, hplan, hpmr, htool, hs]
      · simp [processToolUses, hskip, hplan, hpmr, htool, hs]

/-- Processing a batch `pre ++ attempt_completion :: post` in ACT mode with no
operator feedback: every `pre` step continues, the completion dispatch
succeeds and ends the batch, the dispatch trace ends with the completion at
index `idx + pre.length`, and every other dispatch has a smaller index (so
nothing in `post` is ever dispatched). -/
lemma processToolUses_completes {s : Nat → String}
    {e : Nat → String → List (List Char × ParamValue) → ToolOutcome}
    (hs : ∀ n, s n = "") {tu : ToolUse} (htu : tu.name = "attempt_completion") :
    ∀ (pre : List ToolUse), (∀ u ∈ pre, u.name ≠ "attempt_completion") →
    ∀ (post : List ToolUse) (idx cur : Nat) (res : List ToolResult),
    (∃ r0, e (idx + pre.length) tu.name tu.input = ToolOutcome.ok r0) →
    ∃ tr, processToolUses s e (pre ++ tu :: post) idx cur Mode.ACT res
        = (GoOut.completed, tr ++ [(idx + pre.length, "attempt_completion")])
      ∧ ∀ p ∈ tr, p.1 < idx + pre.length := by
  intro pre
  induction pre with
  | nil =>
    rintro _ post idx cur res ⟨r0, hexec⟩
    refine ⟨[], ?_, by simp⟩
    have h1 : ("attempt_completion" : String) ∈ skipConfirm := by decide
    have h2 : ("attempt_completion" : String) ∈ agentTools := by decide
    have h3 : ¬(Mode.ACT = Mode.PLAN ∧ ("attempt_completion" : String) ∈ actOnlyTools) :=
      fun h => absurd h.1 (by decide)
    simp only [List.length_nil, Nat.add_zero] at hexec
    rw [htu] at hexec
    simp only [List.nil_append]
    simp [processToolUses, htu, h1, h2, h3, hexec]
  | cons u pre' ih =>
    rintro hpre post idx cur res ⟨r0, hexec⟩
    have hu : u.name ≠ "attempt_completion" := hpre u (List.mem_cons_self u pre')
    have hpre' : ∀ w ∈ pre', w.name ≠ "attempt_completion" :=
      fun w hw => hpre w (List.mem_cons_of_mem u hw)
    have harith2 : idx + 1 + pre'.length = idx + (u :: pre').length := by
      simp [List.length_cons]
      omega
    have hexec' : ∃ r1, e (idx + 1 + pre'.length) tu.name tu.input = ToolOutcome.ok r1 := by
      refine ⟨r0, ?_⟩
      rw [harith2]
      exact hexec
    have hstep := processToolUses_step_continue (e := e) hs hu (pre' ++ tu :: post) idx cur res
    rcases hstep with ⟨cur', res', heq⟩ | ⟨cur', res', heq⟩
    · obtain ⟨tr, htr, hb⟩ := ih hpre' post (idx + 1) cur' res' hexec'
      refine ⟨tr, ?_, ?_⟩
      · rw [List.cons_append, heq, htr, harith2]
      · intro p hp
        have h2 := hb p hp
        simp only [List.length_cons]
        omega
    · obtain ⟨tr, htr, hb⟩ := ih hpre' post (idx + 1) cur' res' hexec'
      refine ⟨(idx, u.name) :: tr, ?_, ?_⟩
      · rw [List.cons_append, heq, htr, harith2]
        simp
      · intro p hp
        rcases List.mem_cons.mp hp with rfl | hp2
        · simp only [List.length_cons]
          omega
        · have h2 := hb p hp2
          simp only [List.length_cons]
          omega

lemma runIter_no_tools (stream : Nat → String) (st : AgentState) (t : TurnInput)
    (h : chunkToolUses t.chunks = []) :
    runIter stream st t
      = (IterOut.toNext ⟨(st.conv ++ [⟨Role.user, st.userContent ++ "\n\n" ++ t.envCtx⟩])
            ++ [⟨Role.assistant, chunkTexts t.chunks⟩],
          st.mode, agentNudge, st.cursor⟩, []) := by
  simp [runIter, h]

/-! # Claim theorems -/

/-- Claim C4, counterexample: the claim asserts that a same-named tag nested
inside a parameter body is kept verbatim as part of that parameter's string
value.  On `<read_file><path>A<path>B</path>C</path></read_file>` the parser
instead ends the `path` parameter at the *first* `</path>` (the nested one):
the stored value is `A<path>B`, not the verbatim body `A<path>B</path>C`. -/
theorem c4_nested_tag_counterexample :
    parseInvs "<read_file><path>A<path>B</path>C</path></read_file>".data
      = [⟨"read_file".data, [("path".data, ParamValue.str "A<path>B".data)]⟩]
    ∧ "A<path>B".data ≠ "A<path>B</path>C".data := by
  exact ⟨rfl, by decide⟩

/-- Claim C4 (amended): extraction is exactly two passes (top-level block,
then immediate parameter), and a nested tag of a *different* name inside a
parameter body is kept verbatim as parameter content (first conjunct); but a
same-named nested tag is not kept verbatim: the lazy match ends the parameter
value at the first same-named closing tag, so for any whitelisted tool `T`,
word-only parameter name `P ≠ T` and tag-free contexts `A`, `B`, `C`, the text
`<T><P>A<P>B</P>C</P></T>` parses to the single invocation `T` whose only
parameter is `P` with the truncated raw value `A<P>B` (second conjunct). -/
theorem c4_two_pass_truncation :
    (parseInvs "<read_file><path>A<b>B</b>C</path></read_file>".data
      = [⟨"read_file".data, [("path".data, ParamValue.str "A<b>B</b>C".data)]⟩])
    ∧ ∀ (T P A B C : List Char),
        validTools.contains T = true →
        P ≠ [] → (∀ c ∈ P, isWordChar c = true) → T ≠ P →
        (∀ c ∈ A, c ≠ '<') → (∀ c ∈ B, c ≠ '<') → (∀ c ∈ C, c ≠ '<') →
        parseInvs (openTag T ++ (openTag P ++ A ++ openTag P ++ B ++ closeTag P
            ++ C ++ closeTag P) ++ closeTag T)
          = [⟨T, [(P, paramValue P (A ++ openTag P ++ B))]⟩] := by
  constructor
  · rfl
  · intro T P A B C hcon hP hPw hne hA hB hC
    obtain ⟨hT, hTw⟩ := validTools_words hcon
    have hblocks := scanBlocks_nested_block hT hTw hPw hne hA hB hC
    have hparams := scanBlocks_nested_param hP hPw hA hB hC
    unfold parseInvs
    rw [hblocks]
    have hpp : parseParams (openTag P ++ A ++ openTag P ++ B ++ closeTag P ++ C ++ closeTag P)
        = [(P, paramValue P (A ++ openTag P ++ B))] := by
      unfold parseParams
      rw [hparams, List.foldl_cons, List.foldl_nil]
      simp [upsertP]
    simp only [List.append_assoc] at hpp
    have hmem : T ∈ validTools := by simpa using hcon
    simp [hmem, hpp]

/-- Claim C4, witness: the amended truncation theorem applied at the concrete
instance `T := read_file`, `P := path`, `A := "A"`, `B := "B"`, `C := "C"`. -/
theorem c4_two_pass_truncation_witness :
    (validTools.contains "read_file".data = true)
    ∧ ("path".data ≠ ([] : List Char))
    ∧ (∀ c ∈ "path".data, isWordChar c = true)
    ∧ ("read_file".data ≠ "path".data)
    ∧ (∀ c ∈ "A".data, c ≠ '<')
    ∧ parseInvs (openTag "read_file".data ++ (openTag "path".data ++ "A".data
        ++ openTag "path".data ++ "B".data ++ closeTag "path".data
        ++ "C".data ++ closeTag "path".data) ++ closeTag "read_file".data)
      = [⟨"read_file".data,
          [("path".data,
            paramValue "path".data ("A".data ++ openTag "path".data ++ "B".data))]⟩] :=
  ⟨by decide, by decide, by decide, by decide, by decide,
   c4_two_pass_truncation.2 "read_file".data "path".data "A".data "B".data "C".data
     (by decide) (by decide) (by decide) (by decide) (by decide) (by decide) (by decide)⟩

/-- Claim C7: an `options` parameter whose trimmed value begins with `[` is
decoded as JSON when possible (`["a","b"]` yields the two-element list) and is
kept as the raw trimmed string on decode failure (`[not json` stays the
literal string); and in general every parsed parameter value is either the
trimmed raw string, or a successful `options` JSON decode — no error case
exists. -/
theorem c7_options_decode :
    (parseInvs "<ask_followup_question><question>q</question><options>[\"a\",\"b\"]</options></ask_followup_question>".data
      = [⟨"ask_followup_question".data,
          [("question".data, ParamValue.str "q".data),
           ("options".data, ParamValue.json (Json.arr [Json.str "a".data, Json.str "b".data]))]⟩])
    ∧ (parseInvs "<ask_followup_question><options>[not json</options></ask_followup_question>".data
      = [⟨"ask_followup_question".data,
          [("options".data, ParamValue.str "[not json".data)]⟩])
    ∧ ∀ (name raw : List Char),
        paramValue name raw = ParamValue.str (trim raw)
        ∨ ∃ j, paramValue name raw = ParamValue.json j
            ∧ jsonParse (trim raw) = some j
            ∧ name = "options".data ∧ startsWith ['['] (trim raw) = true := by
  refine ⟨rfl, rfl, ?_⟩
  intro name raw
  unfold paramValue
  by_cases h1 : (name == "options".data && startsWith ['['] (trim raw)) = true
  · rw [if_pos h1]
    simp only [Bool.and_eq_true, beq_iff_eq] at h1
    cases hj : jsonParse (trim raw) with
    | none => left; rfl
    | some j => right; exact ⟨j, rfl, rfl, h1.1, h1.2⟩
  · rw [if_neg h1]
    left
    rfl

/-- Claim C5, counterexample: the claim's concrete lines `{"partial":` and
`"ok":true}` do *not* form a valid record when concatenated — the
concatenation `{"partial":"ok":true}` is malformed JSON — so the reader
buffers both and yields zero decoded records, not exactly one. -/
theorem c5_concat_counterexample :
    decodeLines ["\x7b\"partial\":".data, "\"ok\":true\x7d".data] [] = []
    ∧ (decodeLines ["\x7b\"partial\":".data, "\"ok\":true\x7d".data] []).length ≠ 1 := by
  exact ⟨rfl, by decide⟩

/-- Claim C5 (amended): for any two consecutive lines whose first strips to an
undecodable record but whose stripped concatenation decodes, the reader
buffers the first line, concatenates it with the next, and yields exactly the
one decoded record with no decode error (for example the pair `{"partial":`
and `true}`); the pair `{"partial":` / `"ok":true}` given by the claim does
not concatenate to a valid record and yields no record instead. -/
theorem c5_buffered_concat (l1 l2 : List Char) (v : Json)
    (h1 : jsonParse (trim l1) = none)
    (h2 : jsonParse (trim l1 ++ trim l2) = some v) :
    decodeLines [l1, l2] [] = [v] := by
  have hs2 : trim l2 ≠ [] := by
    intro he
    rw [he, List.append_nil] at h2
    rw [h1] at h2
    exact absurd h2 (by simp)
  by_cases hs1 : trim l1 = []
  · have h2' : jsonParse (([] : List Char) ++ trim l2) = some v := by
      rw [List.nil_append]
      rw [hs1, List.nil_append] at h2
      exact h2
    rw [decodeLines_cons_blank hs1, decodeLines_cons_ok hs2 h2']
    rfl
  · have h2' : jsonParse (([] : List Char) ++ trim l1) = none := by
      rw [List.nil_append]; exact h1
    have h2'' : jsonParse ((([] : List Char) ++ trim l1) ++ trim l2) = some v := by
      rw [List.nil_append]; exact h2
    rw [decodeLines_cons_buffer hs1 h2', decodeLines_cons_ok hs2 h2'']
    rfl

/-- Claim C5, witness: the amended theorem applied to the genuinely split
record `{"partial":` / `true}`, which decodes to exactly one object. -/
theorem c5_buffered_concat_witness :
    jsonParse (trim "\x7b\"partial\":".data) = none
    ∧ jsonParse (trim "\x7b\"partial\":".data ++ trim "true\x7d".data)
        = some (Json.obj [("partial".data, Json.bool true)])
    ∧ decodeLines ["\x7b\"partial\":".data, "true\x7d".data] []
        = [Json.obj [("partial".data, Json.bool true)]] :=
  ⟨rfl, rfl,
   c5_buffered_concat "\x7b\"partial\":".data "true\x7d".data
     (Json.obj [("partial".data, Json.bool true)]) rfl rfl⟩

/-- Claim C3: in both provider variants, every text fragment is yielded before
any tool_use fragment — once a tool_use fragment has appeared at position `i`,
no position `j ≥ i` holds a text fragment. -/
theorem c3_text_before_invocations :
    (∀ (deltas : List String) (i j : Nat), i ≤ j →
       isToolUseAt (openaiStream deltas) i = true →
       isTextAt (openaiStream deltas) j = false)
    ∧ (∀ (lines : List (List Char)) (i j : Nat), i ≤ j →
       isToolUseAt (claudeStream lines) i = true →
       isTextAt (claudeStream lines) j = false) := by
  constructor
  · intro deltas i j hij hi
    exact text_before_tool
      (A := (deltas.filter fun d => !(d == "")).map Chunk.text)
      (B := toolUseChunks
        ((deltas.filter fun d => !(d == "")).foldl (fun a d => a ++ d) "").data)
      (by intro c hc; obtain ⟨t, -, rfl⟩ := List.mem_map.mp hc; rfl)
      (by
        intro c hc
        unfold toolUseChunks at hc
        obtain ⟨inv, -, rfl⟩ := List.mem_map.mp hc
        rfl)
      i j hij hi
  · intro lines i j hij hi
    exact text_before_tool
      (A := (((decodeLines lines []).map recordTexts).flatten).map
        (fun t => Chunk.text (String.mk t)))
      (B := toolUseChunks (((decodeLines lines []).map recordTexts).flatten).flatten)
      (by intro c hc; obtain ⟨t, -, rfl⟩ := List.mem_map.mp hc; rfl)
      (by
        intro c hc
        unfold toolUseChunks at hc
        obtain ⟨inv, -, rfl⟩ := List.mem_map.mp hc
        rfl)
      i j hij hi

/-- Claim C3, witness: a turn whose text embeds a completion tag yields, for
both variants, the text fragment at position 0 and the tool_use fragment at
position 1; the theorem instantiated at `i = j = 1` confirms no text follows
the tool_use. -/
theorem c3_text_before_invocations_witness :
    isToolUseAt (openaiStream ["<attempt_completion><result>ok</result></attempt_completion>"]) 1 = true
    ∧ isTextAt (openaiStream ["<attempt_completion><result>ok</result></attempt_completion>"]) 1 = false
    ∧ isToolUseAt (claudeStream ["\"<attempt_completion><result>ok</result></attempt_completion>\"".data]) 1 = true
    ∧ isTextAt (claudeStream ["\"<attempt_completion><result>ok</result></attempt_completion>\"".data]) 1 = false :=
  ⟨rfl,
   c3_text_before_invocations.1 ["<attempt_completion><result>ok</result></attempt_completion>"]
     1 1 (Nat.le_refl 1) rfl,
   rfl,
   c3_text_before_invocations.2 ["\"<attempt_completion><result>ok</result></attempt_completion>\"".data]
     1 1 (Nat.le_refl 1) rfl⟩

/-- Claim C10: every turn-event emission catches all sink exceptions — for
every sink behaviour, state and script, the websocket turn loop never
surfaces a sink failure (the run is always `ok`) and its entire outcome is
identical to the run with an always-working sink. -/
theorem c10_sink_never_raises :
    ∀ (sink : Sink) (st : TaskState) (ts : List TaskInput),
      isOkRun (runTaskLoop sink st ts) = true
      ∧ runTaskLoop sink st ts = runTaskLoop okSink st ts :=
  fun sink st ts => ⟨runTaskLoop_isOk sink ts st, runTaskLoop_sink_free sink ts st⟩

/-- Claim C6, counterexample: at task start of the websocket turn loop there is
no caller override at all, and the adapter call is made without a mode
argument, so the mode supplied to the Provider Adapter is the adapter default
ACT — not PLAN as the claim states. -/
theorem c6_task_start_mode_counterexample :
    modesOf (runTaskLoop okSink ⟨[], "<task>\nt\n</task>", false⟩
        [⟨[Chunk.text "hello"], "env", fun _ _ => ToolOutcome.ok ""⟩])
      = [Mode.ACT]
    ∧ Mode.ACT ≠ Mode.PLAN := by
  exact ⟨rfl, by decide⟩

/-- Claim C6 (amended): in the interactive agent loop the mode defaults to
PLAN (operator choice `"2"` overrides to ACT), the initial state carries the
chosen mode, and every provider call of an iteration is supplied the loop's
current mode; the websocket Task loop never passes a mode, so each of its
provider calls receives the adapter default ACT. -/
theorem c6_mode_defaulting :
    (chooseMode "" = Mode.PLAN ∧ chooseMode "1" = Mode.PLAN ∧ chooseMode "2" = Mode.ACT)
    ∧ (∀ (task : String) (m : Mode), (initialAgentState task m).mode = m)
    ∧ (∀ (stream : Nat → String) (st : AgentState) (t : TurnInput) (ts : List TurnInput),
        (runAgentLoop stream st (t :: ts)).modes.head? = some st.mode)
    ∧ (∀ (sink : Sink) (st : TaskState) (ts : List TaskInput),
        modesOf (runTaskLoop sink st ts)
          = List.replicate (callsOf (runTaskLoop sink st ts)) Mode.ACT) := by
  refine ⟨⟨rfl, rfl, rfl⟩, fun _ _ => rfl, ?_, fun sink st ts => runTaskLoop_modes sink ts st⟩
  intro stream st t ts
  simp only [runAgentLoop]
  rcases hit : runIter stream st t with ⟨out, tr⟩
  cases out <;> simp

/-- Claim C2: the mode policy satisfies `allowed(PLAN, write_to_file) = false`,
`allowed(ACT, read_file) = true` and `allowed(ACT, write_to_file) = true`; and
every invocation the policy disallows (once it reaches the policy check, i.e.
the operator supplied no feedback at its prompt) is short-circuited: the tool
is not dispatched, the deterministic rejection string becomes its ToolResult,
and the loop proceeds to the remaining invocations. -/
theorem c2_mode_policy :
    (allowed Mode.PLAN "write_to_file" = false)
    ∧ (allowed Mode.ACT "read_file" = true)
    ∧ (allowed Mode.ACT "write_to_file" = true)
    ∧ ∀ (s : Nat → String)
        (e : Nat → String → List (List Char × ParamValue) → ToolOutcome)
        (u : ToolUse) (rest : List ToolUse) (idx cur : Nat) (mode : Mode)
        (res : List ToolResult),
        allowed mode u.name = false →
        (skipConfirm.contains u.name = true ∨ s cur = "") →
        processToolUses s e (u :: rest) idx cur mode res
          = processToolUses s e rest (idx + 1)
              (cur + (if skipConfirm.contains u.name then 0 else 1)) mode
              (res ++ [⟨u.id, rejectionMsg u.name⟩]) :=
  ⟨by decide, by decide, by decide,
   fun _ _ _ _ _ _ _ _ h1 h2 => processToolUses_rejected h1 h2⟩

/-- Claim C2, witness: in PLAN mode a `write_to_file` invocation (operator
pressed Enter at the prompt) is replaced by the rejection ToolResult and the
loop continues. -/
theorem c2_mode_policy_witness :
    (allowed Mode.PLAN "write_to_file" = false)
    ∧ ((skipConfirm.contains "write_to_file" = true) ∨ ((fun _ => "") : Nat → String) 0 = "")
    ∧ processToolUses (fun _ => "") (fun _ _ _ => ToolOutcome.ok "r")
        [⟨"write_to_file", "tool_write_to_file", []⟩] 0 0 Mode.PLAN []
      = processToolUses (fun _ => "") (fun _ _ _ => ToolOutcome.ok "r")
          [] 1 (0 + (if skipConfirm.contains "write_to_file" then 0 else 1)) Mode.PLAN
          ([] ++ [⟨"tool_write_to_file", rejectionMsg "write_to_file"⟩]) :=
  ⟨by decide, Or.inr rfl,
   c2_mode_policy.2.2.2 (fun _ => "") (fun _ _ _ => ToolOutcome.ok "r")
     ⟨"write_to_file", "tool_write_to_file", []⟩ [] 0 0 Mode.PLAN []
     (by decide) (Or.inr rfl)⟩

/-- Claim C8: a tool that raises is converted into an `Error:` result string
and an unknown tool name into an `Unknown tool:` result string, in both
loops — `Task.execute_tool` returns the string (never an exception), and the
interactive loop folds the string in as the invocation's ToolResult and
continues with the remaining invocations. -/
theorem c8_failures_become_results :
    (∀ (sink : Sink) (e : String → List (List Char × ParamValue) → ToolOutcome)
       (tu : ToolUse) (ex : String),
       agentTools.contains tu.name = true →
       e tu.name tu.input = ToolOutcome.exc ex →
       taskExecTool sink e tu = Except.ok ("Error: " ++ ex))
    ∧ (∀ (sink : Sink) (e : String → List (List Char × ParamValue) → ToolOutcome)
       (tu : ToolUse),
       agentTools.contains tu.name = false →
       taskExecTool sink e tu = Except.ok ("Unknown tool: " ++ tu.name))
    ∧ (∀ (s : Nat → String)
        (e : Nat → String → List (List Char × ParamValue) → ToolOutcome)
        (u : ToolUse) (rest : List ToolUse) (idx cur : Nat) (mode : Mode)
        (res : List ToolResult) (ex : String),
        allowed mode u.name = true →
        u.name ≠ "plan_mode_respond" →
        agentTools.contains u.name = true →
        e idx u.name u.input = ToolOutcome.exc ex →
        (skipConfirm.contains u.name = true ∨ s cur = "") →
        processToolUses s e (u :: rest) idx cur mode res
          = ((processToolUses s e rest (idx + 1)
                (cur + (if skipConfirm.contains u.name then 0 else 1)) mode
                (res ++ [⟨u.id, "Error: " ++ ex⟩])).1,
             (idx, u.name) ::
               (processToolUses s e rest (idx + 1)
                 (cur + (if skipConfirm.contains u.name then 0 else 1)) mode
                 (res ++ [⟨u.id, "Error: " ++ ex⟩])).2))
    ∧ (∀ (s : Nat → String)
        (e : Nat → String → List (List Char × ParamValue) → ToolOutcome)
        (u : ToolUse) (rest : List ToolUse) (idx cur : Nat) (mode : Mode)
        (res : List ToolResult),
        allowed mode u.name = true →
        u.name ≠ "plan_mode_respond" →
        agentTools.contains u.name = false →
        (skipConfirm.contains u.name = true ∨ s cur = "") →
        processToolUses s e (u :: rest) idx cur mode res
          = processToolUses s e rest (idx + 1)
              (cur + (if skipConfirm.contains u.name then 0 else 1)) mode
              (res ++ [⟨u.id, "Unknown tool: " ++ u.name⟩])) := by
  refine ⟨?_, ?_, ?_, ?_⟩
  · intro sink e tu ex htool hexec
    rw [taskExecTool_eq]
    unfold taskExecPure
    rw [if_pos htool, hexec]
  · intro sink e tu htool
    rw [taskExecTool_eq]
    unfold taskExecPure
    rw [if_neg (by simpa using htool)]
  · intro s e u rest idx cur mode res ex h1 h2 h3 h4 h5
    exact processToolUses_dispatch_exc h1 h2 h3 h4 h5
  · intro s e u rest idx cur mode res h1 h2 h3 h4
    exact processToolUses_unknown h1 h2 h3 h4

/-- Claim C8, witness: a raising `read_file` produces the `Error:` result in
both loops, and the unregistered name `ask_followup_question` produces the
`Unknown tool:` result, each applied at a concrete input through the claim
theorem. -/
theorem c8_failures_become_results_witness :
    (agentTools.contains "read_file" = true)
    ∧ taskExecTool okSink (fun _ _ => ToolOutcome.exc "boom")
        ⟨"read_file", "tool_read_file", []⟩ = Except.ok ("Error: " ++ "boom")
    ∧ (agentTools.contains "ask_followup_question" = false)
    ∧ taskExecTool okSink (fun _ _ => ToolOutcome.ok "r")
        ⟨"ask_followup_question", "tool_ask_followup_question", []⟩
      = Except.ok ("Unknown tool: " ++ "ask_followup_question")
    ∧ processToolUses (fun _ => "") (fun _ _ _ => ToolOutcome.exc "boom")
        [⟨"read_file", "tool_read_file", []⟩] 0 0 Mode.ACT []
      = ((processToolUses (fun _ => "") (fun _ _ _ => ToolOutcome.exc "boom")
            [] 1 (0 + (if skipConfirm.contains "read_file" then 0 else 1)) Mode.ACT
            ([] ++ [⟨"tool_read_file", "Error: " ++ "boom"⟩])).1,
         (0, "read_file") ::
           (processToolUses (fun _ => "") (fun _ _ _ => ToolOutcome.exc "boom")
             [] 1 (0 + (if skipConfirm.contains "read_file" then 0 else 1)) Mode.ACT
             ([] ++ [⟨"tool_read_file", "Error: " ++ "boom"⟩])).2)
    ∧ processToolUses (fun _ => "") (fun _ _ _ => ToolOutcome.ok "r")
        [⟨"ask_followup_question", "tool_ask_followup_question", []⟩] 0 0 Mode.ACT []
      = processToolUses (fun _ => "") (fun _ _ _ => ToolOutcome.ok "r")
          [] 1 (0 + (if skipConfirm.contains "ask_followup_question" then 0 else 1)) Mode.ACT
          ([] ++ [⟨"tool_ask_followup_question", "Unknown tool: " ++ "ask_followup_question"⟩]) :=
  ⟨by decide,
   c8_failures_become_results.1 okSink (fun _ _ => ToolOutcome.exc "boom")
     ⟨"read_file", "tool_read_file", []⟩ "boom" (by decide) rfl,
   by decide,
   c8_failures_become_results.2.1 okSink (fun _ _ => ToolOutcome.ok "r")
     ⟨"ask_followup_question", "tool_ask_followup_question", []⟩ (by decide),
   c8_failures_become_results.2.2.1 (fun _ => "") (fun _ _ _ => ToolOutcome.exc "boom")
     ⟨"read_file", "tool_read_file", []⟩ [] 0 0 Mode.ACT [] "boom"
     (by decide) (by decide) (by decide) rfl (Or.inr rfl),
   c8_failures_become_results.2.2.2 (fun _ => "") (fun _ _ _ => ToolOutcome.ok "r")
     ⟨"ask_followup_question", "tool_ask_followup_question", []⟩ [] 0 0 Mode.ACT []
     (by decide) (by decide) (by decide) (Or.inl (by decide))⟩

/-- Claim C9: an iteration whose provider stream yields zero invocations
dispatches no tool, sets the next user content to the fixed nudge, and
continues looping rather than terminating — in the interactive loop (the
iteration contributes an empty dispatch trace and one provider call, with the
continuation started from the nudge state) and in the websocket loop (the
results list is empty, so the nudge becomes the next user content). -/
theorem c9_no_invocations_nudge :
    (∀ (stream : Nat → String) (st : AgentState) (t : TurnInput) (ts : List TurnInput),
      chunkToolUses t.chunks = [] →
      runAgentLoop stream st (t :: ts)
        = (let r := runAgentLoop stream
             ⟨(st.conv ++ [⟨Role.user, st.userContent ++ "\n\n" ++ t.envCtx⟩])
                 ++ [⟨Role.assistant, chunkTexts t.chunks⟩],
               st.mode, agentNudge, st.cursor⟩ ts
           ⟨r.result, r.trace, r.calls + 1, st.mode :: r.modes⟩))
    ∧ (∀ (sink : Sink) (st : TaskState) (t : TaskInput) (ts : List TaskInput),
      st.abort = false →
      chunkToolUses t.chunks = [] →
      runTaskLoop sink st (t :: ts)
        = mapTaskStep (runTaskLoop sink
            ⟨(st.conv ++ [⟨Role.user, st.userContent ++ "\n\n" ++ t.envCtx⟩])
                ++ [⟨Role.assistant, (taskIterPure t.exec t.chunks).1⟩],
              taskNudge, st.abort⟩ ts)) := by
  constructor
  · intro stream st t ts h
    simp only [runAgentLoop, runIter_no_tools stream st t h, List.nil_append]
  · intro sink st t ts hab h
    rw [runTaskLoop_cons sink st t ts hab]
    rw [taskIterPure_no_tools t.exec t.chunks h]
    simp

/-- Claim C9, witness: a turn of plain text produces the nudge continuation in
both loops. -/
theorem c9_no_invocations_nudge_witness :
    (chunkToolUses [Chunk.text "just text"] = [])
    ∧ runAgentLoop (fun _ => "") ⟨[], Mode.PLAN, "u", 0⟩
        [⟨[Chunk.text "just text"], "env", fun _ _ _ => ToolOutcome.ok "r"⟩]
      = (let r := runAgentLoop (fun _ => "")
           ⟨(([] : List Turn) ++ [⟨Role.user, "u" ++ "\n\n" ++ "env"⟩])
               ++ [⟨Role.assistant, chunkTexts [Chunk.text "just text"]⟩],
             Mode.PLAN, agentNudge, 0⟩ []
         ⟨r.result, r.trace, r.calls + 1, Mode.PLAN :: r.modes⟩)
    ∧ ((false : Bool) = false)
    ∧ runTaskLoop okSink ⟨[], "u", false⟩
        [⟨[Chunk.text "just text"], "env", fun _ _ => ToolOutcome.ok "r"⟩]
      = mapTaskStep (runTaskLoop okSink
          ⟨(([] : List Turn) ++ [⟨Role.user, "u" ++ "\n\n" ++ "env"⟩])
              ++ [⟨Role.assistant,
                    (taskIterPure (fun _ _ => ToolOutcome.ok "r") [Chunk.text "just text"]).1⟩],
            taskNudge, false⟩ []) :=
  ⟨rfl,
   c9_no_invocations_nudge.1 (fun _ => "") ⟨[], Mode.PLAN, "u", 0⟩
     ⟨[Chunk.text "just text"], "env", fun _ _ _ => ToolOutcome.ok "r"⟩ [] rfl,
   rfl,
   c9_no_invocations_nudge.2 okSink ⟨[], "u", false⟩
     ⟨[Chunk.text "just text"], "env", fun _ _ => ToolOutcome.ok "r"⟩ [] rfl rfl⟩

/-- Claim C1, counterexample: the websocket turn loop (Task.task_loop) does
not stop on a successful `attempt_completion`.  On a batch holding a
succeeding completion followed by a `read_file`, the loop makes a second
Provider Adapter call (2 calls, not 1), and the invocation after the
completion in the same batch is dispatched too (its result is produced and
folded). -/
theorem c1_websocket_counterexample :
    callsOf (runTaskLoop okSink ⟨[], "u", false⟩
      [⟨[Chunk.toolUse "attempt_completion" "tool_attempt_completion" [],
          Chunk.toolUse "read_file" "tool_read_file" []], "env",
         fun _ _ => ToolOutcome.ok "done"⟩,
       ⟨[Chunk.text "second turn"], "env", fun _ _ => ToolOutcome.ok "done"⟩]) = 2
    ∧ (2 : Nat) ≠ 1
    ∧ (taskIterPure (fun _ _ => ToolOutcome.ok "done")
        [Chunk.toolUse "attempt_completion" "tool_attempt_completion" [],
         Chunk.toolUse "read_file" "tool_read_file" []]).2
      = [⟨"tool_attempt_completion", "done"⟩, ⟨"tool_read_file", "done"⟩] := by
  exact ⟨rfl, by decide, rfl⟩

/-- Claim C1 (amended): in the interactive turn loop (SimpleAgent.task_loop),
when a turn's batch contains a permitted `attempt_completion` invocation
(mode ACT; the operator supplies no feedback) whose dispatch succeeds, the
loop terminates in the completed state after exactly one provider call, the
completion dispatch is the last entry of the dispatch trace, and every other
dispatched invocation precedes the completion in the batch — the invocations
after it are never dispatched and no further provider call is made (first
conjunct).  The websocket turn loop (Task.task_loop) has no completion
handling: every non-aborted iteration proceeds to another provider call
regardless of the batch's content (second conjunct), and every invocation of
the batch — including an `attempt_completion` and anything after it — is
dispatched inline, its results pairing 1:1 with the batch (third conjunct). -/
theorem c1_completion_handling :
    (∀ (stream : Nat → String) (st : AgentState) (t : TurnInput) (ts : List TurnInput)
      (pre post : List ToolUse) (tu : ToolUse) (r0 : String),
      (∀ n, stream n = "") →
      st.mode = Mode.ACT →
      chunkToolUses t.chunks = pre ++ tu :: post →
      tu.name = "attempt_completion" →
      (∀ u ∈ pre, u.name ≠ "attempt_completion") →
      t.exec pre.length tu.name tu.input = ToolOutcome.ok r0 →
      (∃ conv, (runAgentLoop stream st (t :: ts)).result = AgentResult.completed conv)
      ∧ (runAgentLoop stream st (t :: ts)).calls = 1
      ∧ ∃ tr, (runAgentLoop stream st (t :: ts)).trace
            = tr ++ [(pre.length, "attempt_completion")]
          ∧ ∀ p ∈ tr, p.1 < pre.length)
    ∧ (∀ (sink : Sink) (st : TaskState) (t : TaskInput) (ts : List TaskInput),
        st.abort = false →
        runTaskLoop sink st (t :: ts)
          = mapTaskStep (runTaskLoop sink
              ⟨(st.conv ++ [⟨Role.user, st.userContent ++ "\n\n" ++ t.envCtx⟩])
                  ++ [⟨Role.assistant, (taskIterPure t.exec t.chunks).1⟩],
                if (taskIterPure t.exec t.chunks).2.isEmpty then taskNudge
                else joinResults (taskIterPure t.exec t.chunks).2,
                st.abort⟩ ts))
    ∧ (∀ (e : String → List (List Char × ParamValue) → ToolOutcome) (cs : List Chunk),
        (taskIterPure e cs).2
          = (chunkToolUses cs).map fun tu => ⟨tu.id, taskExecPure e tu⟩) := by
  refine ⟨?_, ?_, ?_⟩
  · intro stream st t ts pre post tu r0 hs hmode htus htu hpre hexec
    obtain ⟨tr, htr, hb⟩ := processToolUses_completes (e := t.exec) hs htu pre hpre post
      0 st.cursor [] ⟨r0, by simpa using hexec⟩
    have hne2 : (pre ++ tu :: post).isEmpty = false := by cases pre <;> rfl
    have hiter : runIter stream st t
        = (IterOut.done ((st.conv ++ [⟨Role.user, st.userContent ++ "\n\n" ++ t.envCtx⟩])
            ++ [⟨Role.assistant, chunkTexts t.chunks⟩]),
           tr ++ [(0 + pre.length, "attempt_completion")]) := by
      simp only [runIter, htus, hmode, hne2, htr]
      rfl
    simp only [runAgentLoop, hiter]
    constructor
    · exact ⟨_, rfl⟩
    constructor
    · trivial
    refine ⟨tr, ?_, ?_⟩
    · simp
    · intro p hp
      have h2 := hb p hp
      omega
  · intro sink st t ts hab
    exact runTaskLoop_cons sink st t ts hab
  · intro e cs
    exact taskIterPure_results e cs

/-- Claim C1, witness: for the interactive loop, a batch `write_to_file` then
`attempt_completion` then `read_file` (all succeeding, ACT mode, no operator
feedback) produces a completed run with exactly one provider call whose trace
ends with the completion; for the websocket loop, a non-aborted iteration
with a succeeding completion in the batch continues to the rest of the
script. -/
theorem c1_completion_handling_witness :
    ((∀ n : Nat, ((fun _ => "") : Nat → String) n = ""))
    ∧ (chunkToolUses [Chunk.text "doing it ",
          Chunk.toolUse "write_to_file" "tool_write_to_file" [],
          Chunk.toolUse "attempt_completion" "tool_attempt_completion" [],
          Chunk.toolUse "read_file" "tool_read_file" []]
        = [⟨"write_to_file", "tool_write_to_file", []⟩]
            ++ ⟨"attempt_completion", "tool_attempt_completion", []⟩
              :: [⟨"read_file", "tool_read_file", []⟩])
    ∧ ((∃ conv,
         (runAgentLoop (fun _ => "") ⟨[], Mode.ACT, "u", 0⟩
           [⟨[Chunk.text "doing it ",
               Chunk.toolUse "write_to_file" "tool_write_to_file" [],
               Chunk.toolUse "attempt_completion" "tool_attempt_completion" [],
               Chunk.toolUse "read_file" "tool_read_file" []], "env",
              fun _ _ _ => ToolOutcome.ok "done"⟩]).result
           = AgentResult.completed conv)
       ∧ (runAgentLoop (fun _ => "") ⟨[], Mode.ACT, "u", 0⟩
           [⟨[Chunk.text "doing it ",
               Chunk.toolUse "write_to_file" "tool_write_to_file" [],
               Chunk.toolUse "attempt_completion" "tool_attempt_completion" [],
               Chunk.toolUse "read_file" "tool_read_file" []], "env",
              fun _ _ _ => ToolOutcome.ok "done"⟩]).calls = 1
       ∧ ∃ tr,
           (runAgentLoop (fun _ => "") ⟨[], Mode.ACT, "u", 0⟩
             [⟨[Chunk.text "doing it ",
                 Chunk.toolUse "write_to_file" "tool_write_to_file" [],
                 Chunk.toolUse "attempt_completion" "tool_attempt_completion" [],
                 Chunk.toolUse "read_file" "tool_read_file" []], "env",
                fun _ _ _ => ToolOutcome.ok "done"⟩]).trace
             = tr ++ [(1, "attempt_completion")]
           ∧ ∀ p ∈ tr, p.1 < 1)
    ∧ ((false : Bool) = false)
    ∧ runTaskLoop okSink ⟨[], "u", false⟩
        [⟨[Chunk.toolUse "attempt_completion" "tool_attempt_completion" []], "env",
           fun _ _ => ToolOutcome.ok "done"⟩,
         ⟨[Chunk.text "second turn"], "env", fun _ _ => ToolOutcome.ok "done"⟩]
      = mapTaskStep (runTaskLoop okSink
          ⟨(([] : List Turn) ++ [⟨Role.user, "u" ++ "\n\n" ++ "env"⟩])
              ++ [⟨Role.assistant,
                    (taskIterPure (fun _ _ => ToolOutcome.ok "done")
                      [Chunk.toolUse "attempt_completion" "tool_attempt_completion" []]).1⟩],
            if (taskIterPure (fun _ _ => ToolOutcome.ok "done")
                  [Chunk.toolUse "attempt_completion" "tool_attempt_completion" []]).2.isEmpty
            then taskNudge
            else joinResults (taskIterPure (fun _ _ => ToolOutcome.ok "done")
                  [Chunk.toolUse "attempt_completion" "tool_attempt_completion" []]).2,
            false⟩
          [⟨[Chunk.text "second turn"], "env", fun _ _ => ToolOutcome.ok "done"⟩]) :=
  ⟨fun _ => rfl, rfl,
   c1_completion_handling.1 (fun _ => "") ⟨[], Mode.ACT, "u", 0⟩
     ⟨[Chunk.text "doing it ",
        Chunk.toolUse "write_to_file" "tool_write_to_file" [],
        Chunk.toolUse "attempt_completion" "tool_attempt_completion" [],
        Chunk.toolUse "read_file" "tool_read_file" []], "env",
       fun _ _ _ => ToolOutcome.ok "done"⟩ []
     [⟨"write_to_file", "tool_write_to_file", []⟩]
     [⟨"read_file", "tool_read_file", []⟩]
     ⟨"attempt_completion", "tool_attempt_completion", []⟩ "done"
     (fun _ => rfl) rfl rfl rfl
     (by intro u hu; simp at hu; rw [hu]; decide) rfl,
   rfl,
   c1_completion_handling.2.1 okSink ⟨[], "u", false⟩
     ⟨[Chunk.toolUse "attempt_completion" "tool_attempt_completion" []], "env",
       fun _ _ => ToolOutcome.ok "done"⟩
     [⟨[Chunk.text "second turn"], "env", fun _ _ => ToolOutcome.ok "done"⟩] rfl⟩

end Codeline
